import Mathlib

/-!
# Schema normalizer and method compiler of swagger-angular-generator

A shallow embedding of `dist/generate.js` (`removeEmptyObjectsFromJSONScheme` and the base-path
normalization of `generate`) and of `dist/requests/process-method.js` (`processMethod` and its
helpers), followed by theorems about the embedded functions.

Conventions of the embedding:

* a JavaScript string is a `Text`, a list of characters;
* a JavaScript object used as an ordered dictionary (`paramGroups`) is an association list in key
  insertion order;
* a call that raises a `TypeError` in the source returns `none`;
* `JSON.parse` is modelled on the texts the normalizer hands to it: objects and strings without
  escape sequences or white space;
* the collaborators that live in other modules (`conf.allowedParams`, `processParams`,
  `utils.indent`, `utils.makeComment`) and in libraries (`tsutils.isValidPropertyName`,
  `String.prototype.toUpperCase`) are the fields of an `Env` that every compiled function receives.
-/

namespace SwaggerGen

/-- A JavaScript string. -/
abbrev Text := List Char

/-- A string literal as a text. -/
def lit (s : String) : Text := s.toList

/-- The effect of `Array.prototype.join(sep)` on an array of strings. -/
def join (sep : Text) : List Text → Text
  | [] => []
  | [x] => x
  | x :: y :: rest => x ++ sep ++ join sep (y :: rest)

/-- Maps a function that may raise over a list; the first failure aborts the whole map. -/
def mapOpt {α β : Type} (f : α → Option β) : List α → Option (List β)
  | [] => some []
  | a :: as =>
    match f a with
    | none => none
    | some b =>
      match mapOpt f as with
      | none => none
      | some bs => some (b :: bs)

/-! ## Data model -/

/-- The parameter locations of the schema (`ParamLocation` of the generator). The source holds a
location as one of five strings, read from the field `in`. -/
inductive Loc
  | path
  | query
  | header
  | body
  | formData
deriving DecidableEq, Repr

/-- The string a location stands for in the schema and in emitted code. -/
def Loc.toText : Loc → Text
  | .path => lit "path"
  | .query => lit "query"
  | .header => lit "header"
  | .body => lit "body"
  | .formData => lit "formData"

/-- A parameter descriptor. `in_` is the field `in`; `schema` is present exactly when the
descriptor has a `schema` property; `typeDesc` stands for the remaining fields, which only the
parameter compiler reads. -/
structure Parameter where
  name : Text
  in_ : Loc
  schema : Option Text
  typeDesc : Text
deriving DecidableEq, Repr

/-- The response descriptor of a method. -/
structure ResponseDef where
  type : Text
  enumDeclaration : Option Text
deriving DecidableEq, Repr

/-- The method descriptor consumed by `processMethod`. -/
structure Method where
  url : Text
  simpleName : Text
  methodName : Text
  basePath : Text
  summary : Option Text
  description : Option Text
  swaggerUrl : Option Text
  paramDef : Option (List Parameter)
  responseDef : ResponseDef
deriving DecidableEq, Repr

/-- The output of the parameter compiler `processParams`. -/
structure ProcessedParams where
  paramDef : Text
  typesOnly : Text
  usesGlobalType : Bool
  isInterfaceEmpty : Bool
deriving DecidableEq, Repr

/-- The object `_.groupBy` returns: location groups in key insertion order. No location name is
an integer-like key, so the enumeration order of the object is the insertion order. -/
abbrev ParamGroups := List (Loc × List Parameter)

/-- The bundle `processMethod` returns. -/
structure MethodCode where
  methodDef : Text
  interfaceDef : Text
  usesGlobalType : Bool
  paramGroups : ParamGroups
  responseDef : ResponseDef
  simpleName : Text
  methodName : Text
deriving DecidableEq, Repr

/-- The argument of `utils.indent`: one string or an array of lines. -/
inductive IndentInput
  | text (s : Text)
  | lines (l : List Text)
deriving DecidableEq, Repr

/-- The collaborators of the method compiler that are defined outside the two embedded modules. -/
structure Env where
  /-- The table `conf.allowedParams`; `none` where the table has no entry for the verb. -/
  allowedParams : Text → Option (List Loc)
  /-- The parameter compiler `processParams(paramDef, paramsType)`. -/
  processParams : List Parameter → Text → ProcessedParams
  /-- The helper `utils.indent`. -/
  indent : IndentInput → Text
  /-- The helper `utils.makeComment`. -/
  makeComment : List Text → Text
  /-- The predicate `tsutils.isValidPropertyName`. -/
  isValidPropertyName : Text → Bool
  /-- The upper-casing `String.prototype.toUpperCase` of one character. -/
  toUpperCase : Char → Text

/-! ## `process-method.js` -/

/-- One step of the global replace `url.replace(/{([^}]+})/g, '$${pathParams.$1')` with `fuel`
positions left to scan. At a `{` the class `[^}]+` takes the longest run without `}`; the match
succeeds when that run is not empty and something follows it, which can only be the closing `}`.
The replacement is `${pathParams.` followed by the captured run and brace. Otherwise the
character is copied. -/
def urlReplaceAux : Nat → Text → Text
  | 0, s => s
  | _ + 1, [] => []
  | fuel + 1, c :: rest =>
    if c = '{' then
      match rest.span (fun x => x != '}') with
      | (_, []) => c :: urlReplaceAux fuel rest
      | (name, close :: after) =>
        if name = [] then c :: urlReplaceAux fuel rest
        else lit "$\x7bpathParams." ++ name ++ close :: urlReplaceAux fuel after
    else c :: urlReplaceAux fuel rest

/-- The rewritten URL template, `method.url.replace(/{([^}]+})/g, '$${pathParams.$1')`. -/
def urlReplace (url : Text) : Text :=
  urlReplaceAux url.length url

/-- The function `_.upperFirst`. -/
def upperFirst (env : Env) : Text → Text
  | [] => []
  | c :: rest => env.toUpperCase c ++ rest

/-- The function `_.groupBy(paramDef, 'in')`, one element at a time: the element joins the group
of its key, or opens a new group after the existing ones. -/
def groupByInsert (acc : ParamGroups) (p : Parameter) : ParamGroups :=
  match acc with
  | [] => [(p.in_, [p])]
  | (k, g) :: rest =>
    if k = p.in_ then (k, g ++ [p]) :: rest else (k, g) :: groupByInsert rest p

/-- The function `_.groupBy(paramDef, 'in')`. -/
def groupBy (paramDef : List Parameter) : ParamGroups :=
  paramDef.foldl groupByInsert []

/-- The function `setObjectProps`. -/
def setObjectProps (env : Env) (key : Text) : Text :=
  if env.isValidPropertyName key then
    key ++ lit ": params." ++ key ++ lit ","
  else
    lit "\x27" ++ key ++ lit "\x27: params[\x27" ++ key ++ lit "\x27],"

/-- The callback of `getParamSeparation`: the statement block of one location group. Reading
`group[0]` of an empty body group raises. -/
def paramSeparationBlock (env : Env) (groupName : Loc) (group : List Parameter) : Option Text :=
  let list := group.map (fun p => setObjectProps env p.name)
  if groupName = Loc.query then
    let baseDef := lit "\x7b\n" ++ env.indent (.lines list) ++ lit "\n\x7d;"
    some (lit "const queryParamBase = " ++ baseDef ++ lit "\n\n"
      ++ lit "let queryParams = new HttpParams();\n"
      ++ lit "Object.entries(queryParamBase).forEach(([key, value]) => \x7b\n"
      ++ lit "  if (value !== undefined) \x7b\n"
      ++ lit "    if (typeof value === \x27string\x27) queryParams = queryParams.set(key, value);\n"
      ++ lit "    else queryParams = queryParams.set(key, JSON.stringify(value));\n"
      ++ lit "  \x7d\n"
      ++ lit "\x7d);\n")
  else if groupName = Loc.body then
    match group with
    | [] => none
    | first :: _ =>
      let def_ :=
        if first.schema.isSome then lit "params." ++ first.name ++ lit ";"
        else lit "\x7b\n" ++ env.indent (.lines list) ++ lit "\n\x7d;"
      some (lit "const " ++ groupName.toText ++ lit "Params = " ++ def_ ++ lit "\n"
        ++ lit "const bodyParamsWithoutUndefined: any = \x7b\x7d;\n"
        ++ lit "Object.entries(bodyParams || \x7b\x7d).forEach(([key, value]) => \x7b\n"
        ++ lit "  if (value !== undefined) bodyParamsWithoutUndefined[key] = value;\n"
        ++ lit "\x7d);")
  else
    let def0 := lit "\x7b\n" ++ env.indent (.lines list) ++ lit "\n\x7d"
    let def1 := if groupName = Loc.header then lit "new HttpHeaders(" ++ def0 ++ lit ")" else def0
    some (lit "const " ++ groupName.toText ++ lit "Params = " ++ def1 ++ lit ";")

/-- The function `getParamSeparation`: `_.map` over the groups in key order. -/
def getParamSeparation (env : Env) (paramGroups : ParamGroups) : Option (List Text) :=
  mapOpt (fun g => paramSeparationBlock env g.1 g.2) paramGroups

/-- The function `getRequestParams`. -/
def getRequestParams (paramTypes : List Loc) (methodName : Text) : Text :=
  let res : Text :=
    if methodName ∈ [lit "post", lit "put", lit "patch"] then
      if Loc.body ∈ paramTypes then lit ", bodyParamsWithoutUndefined"
      else if Loc.formData ∈ paramTypes then lit ", formDataParams"
      else lit ", \x7b\x7d"
    else []
  let optionParams : List Text :=
    (if Loc.query ∈ paramTypes then [lit "params: queryParams"] else [])
      ++ (if Loc.header ∈ paramTypes then [lit "headers: headerParams"] else [])
  if optionParams.length ≠ 0 then
    res ++ lit ", \x7b" ++ join (lit ", ") optionParams ++ lit "\x7d"
  else res

/-- The function `getParamsSignature`. -/
def getParamsSignature (processedParams : ProcessedParams) (paramsType : Text) : Text :=
  if !processedParams.isInterfaceEmpty then lit "params: " ++ paramsType else []

/-- The function `getSplitParamsSignature`. -/
def getSplitParamsSignature (paramsOutput : ProcessedParams) : Text :=
  paramsOutput.typesOnly

/-- The function `getPropertyAssignments`. -/
def getPropertyAssignments (params : List Parameter) : Text :=
  lit "\x7b" ++ join (lit ", ") (params.map (fun p => p.name)) ++ lit "\x7d"

/-- The function `getInterfaceDef`. -/
def getInterfaceDef (processedParams : ProcessedParams) : Text :=
  if !processedParams.isInterfaceEmpty then processedParams.paramDef else []

/-- The function `getSplitParamsMethod`. It reads `method.paramDef`, the list before filtering;
mapping over an absent list raises. -/
def getSplitParamsMethod (env : Env) (method : Method) (processedParams : ProcessedParams) :
    Option Text :=
  let splitParamsSignature := getSplitParamsSignature processedParams
  match method.paramDef with
  | none => none
  | some defs =>
    let propAssignments := getPropertyAssignments defs
    some (lit "\n" ++ method.simpleName ++ lit "_(" ++ splitParamsSignature
      ++ lit "): Observable<" ++ method.responseDef.type ++ lit "> \x7b\n"
      ++ env.indent (.text (lit "return this." ++ method.simpleName ++ lit "("
          ++ propAssignments ++ lit ");\n"))
      ++ lit "\x7d\n")

/-- The filter `method.paramDef.filter(df => allowed.includes(df.in))`. The callback runs once per
element, so an absent allow-list raises exactly when the list is not empty. -/
def filterAllowed (allowed : Option (List Loc)) (defs : List Parameter) : Option (List Parameter) :=
  match allowed, defs with
  | _, [] => some []
  | none, _ :: _ => none
  | some al, ds => some (ds.filter (fun df => al.contains df.in_))

/-- The variables `processMethod` assigns in its `if (method.paramDef)` branch. -/
structure ParamPart where
  paramSeparation : List Text
  paramsSignature : Text
  usesGlobalType : Bool
  paramTypes : List Loc
  paramGroups : ParamGroups
  interfaceDef : Text
  splitParamsMethod : Text
deriving DecidableEq, Repr

/-- The initial values of the variables of `processMethod`. -/
def ParamPart.initial : ParamPart :=
  { paramSeparation := [], paramsSignature := [], usesGlobalType := false, paramTypes := [],
    paramGroups := [], interfaceDef := [], splitParamsMethod := [] }

/-- The `if (method.paramDef)` branch of `processMethod` (lines 33 to 46). -/
def processParamDef (env : Env) (method : Method) (unwrapSingleParamMethods : Bool) :
    Option ParamPart :=
  match method.paramDef with
  | none => some ParamPart.initial
  | some defs =>
    match filterAllowed (env.allowedParams method.methodName) defs with
    | none => none
    | some paramDef =>
      let paramGroups := groupBy paramDef
      let paramsType := upperFirst env (method.simpleName ++ lit "Params")
      let processedParams := env.processParams paramDef paramsType
      let paramTypes := paramGroups.map Prod.fst
      match getParamSeparation env paramGroups with
      | none => none
      | some paramSeparation =>
        let paramsSignature := getParamsSignature processedParams paramsType
        let usesGlobalType := processedParams.usesGlobalType
        let interfaceDef := getInterfaceDef processedParams
        if unwrapSingleParamMethods && decide (processedParams.typesOnly.length > 0)
            && decide (paramDef.length = 1) then
          match getSplitParamsMethod env method processedParams with
          | none => none
          | some splitParamsMethod =>
            some { paramSeparation, paramsSignature, usesGlobalType, paramTypes, paramGroups,
                   interfaceDef, splitParamsMethod }
        else
          some { paramSeparation, paramsSignature, usesGlobalType, paramTypes, paramGroups,
                 interfaceDef, splitParamsMethod := [] }

/-- The filter `[...].filter(Boolean)` on optional strings: absent and empty strings go. -/
def filterBoolean : List (Option Text) → List Text
  | [] => []
  | none :: rest => filterBoolean rest
  | some s :: rest => if s = [] then filterBoolean rest else s :: filterBoolean rest

/-- The statement `body` of `processMethod` (lines 55 and 56). -/
def returnStatement (method : Method) (url params : Text) : Text :=
  lit "return this.http." ++ method.methodName ++ lit "<" ++ method.responseDef.type
    ++ lit ">" ++ lit "(\x60" ++ method.basePath ++ url ++ lit "\x60" ++ params
    ++ lit ");"

/-- The text `methodDef` of `processMethod` (lines 48 to 60). -/
def composeMethodDef (env : Env) (method : Method) (part : ParamPart) (url params : Text) : Text :=
  lit "\n"
    ++ env.makeComment (filterBoolean [method.summary, method.description, method.swaggerUrl])
    ++ (method.simpleName ++ lit "(" ++ part.paramsSignature ++ lit "): Observable<"
        ++ method.responseDef.type ++ lit "> \x7b\n")
    ++ env.indent (.lines part.paramSeparation)
    ++ (if part.paramSeparation.length ≠ 0 then lit "\n" else [])
    ++ env.indent (.text (returnStatement method url params))
    ++ lit "\n"
    ++ lit "\x7d"
    ++ part.splitParamsMethod

/-- The text `interfaceDef` of `processMethod` after lines 61 to 65. -/
def composeInterfaceDef (method : Method) (interfaceDef : Text) : Text :=
  match method.responseDef.enumDeclaration with
  | none => interfaceDef
  | some enumDeclaration =>
    if enumDeclaration = [] then interfaceDef
    else
      (if interfaceDef ≠ [] then interfaceDef ++ lit "\n" else interfaceDef)
        ++ (enumDeclaration ++ lit "\n")

/-- The function `processMethod`. -/
def processMethod (env : Env) (method : Method) (unwrapSingleParamMethods : Bool) :
    Option MethodCode :=
  let url := urlReplace method.url
  match processParamDef env method unwrapSingleParamMethods with
  | none => none
  | some part =>
    let params := getRequestParams part.paramTypes method.methodName
    some { methodDef := composeMethodDef env method part url params
           interfaceDef := composeInterfaceDef method part.interfaceDef
           usesGlobalType := part.usesGlobalType
           paramGroups := part.paramGroups
           responseDef := method.responseDef
           simpleName := method.simpleName
           methodName := method.methodName }

/-! ## `generate.js` -/

/-- The character class `[«»\w]` of the placeholder pattern. -/
def isWordChar (c : Char) : Bool :=
  c.isAlphanum || c == '_' || c == '«' || c == '»'

/-- Strips the prefix `p` from a text, if the text starts with it. -/
def dropPrefix? : Text → Text → Option Text
  | [], s => some s
  | _ :: _, [] => none
  | p :: ps, c :: cs => if p = c then dropPrefix? ps cs else none

/-- The text of a placeholder fragment with the given key, type and title. -/
def fragment (key type title : Text) : Text :=
  lit "\"" ++ key ++ lit "\":\x7b\"type\":\"" ++ type ++ lit "\",\"title\":\"" ++ title
    ++ lit "\"\x7d"

/-- One attempt to match `/"[«»\w]*?":{"type":"[«»\w]*?","title":"[«»\w]*?"}/` at the start of
the text. Every lazy class run is followed by a `"`, which is not in the class, so the run is the
longest run of class characters. The result is the matched text `match[0]`, the key between the
first pair of quotes, and the text after the match. -/
def matchAt (s : Text) : Option (Text × Text × Text) :=
  match dropPrefix? (lit "\"") s with
  | none => none
  | some s1 =>
    match s1.span isWordChar with
    | (key, s2) =>
      match dropPrefix? (lit "\":\x7b\"type\":\"") s2 with
      | none => none
      | some s3 =>
        match s3.span isWordChar with
        | (type, s4) =>
          match dropPrefix? (lit "\",\"title\":\"") s4 with
          | none => none
          | some s5 =>
            match s5.span isWordChar with
            | (title, s6) =>
              match dropPrefix? (lit "\"\x7d") s6 with
              | none => none
              | some s7 => some (fragment key type title, key, s7)

/-- The loop `while (match !== null)` over `regEx.exec(schema)` with `fuel` positions left: each
match contributes `match[0]` and `defName`, the only key of `JSON.parse('{' + match[0] + '}')`,
and scanning resumes after the match. -/
def execAll : Nat → Text → List (Text × Text)
  | 0, _ => []
  | _ + 1, [] => []
  | fuel + 1, c :: rest =>
    match matchAt (c :: rest) with
    | some (m, defName, after) => (m, defName) :: execAll fuel after
    | none => execAll fuel rest

/-- The call `s.replace(pat, rep)` with a string pattern: only the first occurrence of `pat` is
replaced. The replacement texts of the normalizer hold no `$`, so `rep` is inserted as it is. -/
def replaceFirst (pat rep : Text) : Text → Text
  | [] =>
    match dropPrefix? pat [] with
    | some rest => rep ++ rest
    | none => []
  | c :: cs =>
    match dropPrefix? pat (c :: cs) with
    | some rest => rep ++ rest
    | none => c :: replaceFirst pat rep cs

/-- The template string pushed to `defRefs`. -/
def defRef (defName : Text) : Text :=
  lit "\"$ref\":\"#/definitions/" ++ defName ++ lit "\""

/-- The body of the loop over `jsonObjects` (lines 67 to 69). -/
def removeJsonObject (schema jsonObject : Text) : Text :=
  let s1 := replaceFirst (',' :: jsonObject) [] schema
  let s2 := replaceFirst (jsonObject ++ [',']) [] s1
  replaceFirst jsonObject [] s2

/-- The function `removeEmptyObjectsFromJSONScheme`. -/
def removeEmptyObjectsFromJSONScheme (schema : Text) : Text :=
  let matches_ := execAll schema.length schema
  let jsonObjects := matches_.map Prod.fst
  let defRefs := matches_.map (fun m => defRef m.2)
  let schema1 := defRefs.foldl (fun s r => replaceFirst r (lit "\"type\":\"object\"") s) schema
  jsonObjects.foldl removeJsonObject schema1

/-- A JSON value as far as the normalizer meets one: a string or an object. -/
inductive Json
  | str (s : Text)
  | obj (members : List (Text × Json))

/-- A character that stands for itself inside a JSON string: not a quote, not a backslash, not
a control character. -/
def jsonStringChar (c : Char) : Bool :=
  c != '"' && c != '\\' && decide (32 ≤ c.toNat)

/-- Reads a JSON string without escape sequences from the start of a text: the string and the
text after its closing quote. -/
def parseJsonString (s : Text) : Option (Text × Text) :=
  match dropPrefix? (lit "\"") s with
  | none => none
  | some s1 =>
    match s1.span jsonStringChar with
    | (body, s2) =>
      match dropPrefix? (lit "\"") s2 with
      | none => none
      | some s3 => some (body, s3)

mutual

/-- Reads a JSON value, a string or an object, from the start of a text. -/
def parseJsonValue : Nat → Text → Option (Json × Text)
  | 0, _ => none
  | fuel + 1, s =>
    match parseJsonString s with
    | some (str, rest) => some (.str str, rest)
    | none =>
      match dropPrefix? (lit "\x7b") s with
      | none => none
      | some s1 =>
        match dropPrefix? (lit "\x7d") s1 with
        | some rest => some (.obj [], rest)
        | none =>
          match parseJsonMembers fuel s1 with
          | none => none
          | some (members, rest) => some (.obj members, rest)

/-- Reads the members of a JSON object up to and including its closing brace. -/
def parseJsonMembers : Nat → Text → Option (List (Text × Json) × Text)
  | 0, _ => none
  | fuel + 1, s =>
    match parseJsonString s with
    | none => none
    | some (key, s1) =>
      match dropPrefix? (lit ":") s1 with
      | none => none
      | some s2 =>
        match parseJsonValue fuel s2 with
        | none => none
        | some (value, s3) =>
          match dropPrefix? (lit ",") s3 with
          | some s4 =>
            match parseJsonMembers fuel s4 with
            | none => none
            | some (members, rest) => some ((key, value) :: members, rest)
          | none =>
            match dropPrefix? (lit "\x7d") s3 with
            | none => none
            | some rest => some ([(key, value)], rest)

end

/-- The part of `JSON.parse` the normalizer relies on: texts without white space made of
objects and of strings without escape sequences. Where this function returns a value,
`JSON.parse` returns the same value; `none` stands for a raised error and for every text
outside that part. -/
def jsonParse (s : Text) : Option Json :=
  match parseJsonValue (s.length + 1) s with
  | some (value, []) => some value
  | _ => none

/-- The expression `Object.keys(JSON.parse('{' + match[0] + '}'))[0]`: the name of the first
member of the parsed object; `none` when the parse raises or yields no object with a member. -/
def defNameOf (match0 : Text) : Option Text :=
  match jsonParse (lit "\x7b" ++ match0 ++ lit "\x7d") with
  | some (.obj ((defName, _) :: _)) => some defName
  | _ => none

/-- The loop of `execAll` with the call of `JSON.parse` carried out: `none` when a parse
raises. -/
def execAllParsed : Nat → Text → Option (List (Text × Text))
  | 0, _ => some []
  | _ + 1, [] => some []
  | fuel + 1, c :: rest =>
    match matchAt (c :: rest) with
    | some (m, _, after) =>
      match defNameOf m with
      | none => none
      | some defName =>
        match execAllParsed fuel after with
        | none => none
        | some found => some ((m, defName) :: found)
    | none => execAllParsed fuel rest

/-- The function `removeEmptyObjectsFromJSONScheme` with the call of `JSON.parse` carried out:
`none` when the function raises. -/
def removeEmptyObjectsChecked (schema : Text) : Option Text :=
  match execAllParsed schema.length schema with
  | none => none
  | some matches_ =>
    let jsonObjects := matches_.map Prod.fst
    let defRefs := matches_.map (fun m => defRef m.2)
    let schema1 := defRefs.foldl (fun s r => replaceFirst r (lit "\"type\":\"object\"") s) schema
    some (jsonObjects.foldl removeJsonObject schema1)

/-- The value of `schema.basePath` in the parsed schema: a string, or anything else, an absent
property included. -/
inductive BasePathValue
  | string (s : Text)
  | other

/-- The call `basePath.replace(/\/+$/, '')`: the pattern matches at the first position from
which nothing but `/` follows up to the end of the text; the match reaches the end and is
replaced by the empty text. -/
def stripTrailingSlashes : Text → Text
  | [] => []
  | c :: rest =>
    if c == '/' && rest.all (fun x => x == '/') then [] else c :: stripTrailingSlashes rest

/-- The normalization of `schema.basePath` in `generate` (lines 35 to 41). -/
def normalizeBasePath : BasePathValue → Text
  | .string basePath => stripTrailingSlashes basePath
  | .other => []

/-! ## A sample environment

Concrete collaborators on which the embedded functions can be evaluated: the allow-list table of
the generator's configuration, a parameter compiler that declares every parameter with its type
descriptor, two-space indentation, block comments, ASCII identifiers and ASCII upper-casing. -/

/-- A sample allow-list table: `get` and `delete` carry no body, `post`, `put` and `patch` do. -/
def sampleAllowedParams (methodName : Text) : Option (List Loc) :=
  if methodName = lit "get" then some [.path, .query, .header]
  else if methodName ∈ [lit "post", lit "put", lit "patch"] then
    some [.path, .body, .query, .formData, .header]
  else if methodName = lit "delete" then some [.path, .header]
  else none

/-- A sample parameter compiler: one declaration `name: type` per parameter. -/
def sampleProcessParams (paramDef : List Parameter) (paramsType : Text) : ProcessedParams :=
  let fields := paramDef.map (fun p => p.name ++ lit ": " ++ p.typeDesc)
  { paramDef := lit "export interface " ++ paramsType ++ lit " \x7b"
      ++ join (lit ";") fields ++ lit "\x7d\n"
    typesOnly := join (lit ", ") fields
    usesGlobalType := false
    isInterfaceEmpty := paramDef.isEmpty }

/-- Puts two spaces in front of every line of a text that is not empty; `atStart` tells whether
the text starts a line. -/
def indentText : Bool → Text → Text
  | _, [] => []
  | atStart, c :: rest =>
    if c = '\n' then c :: indentText true rest
    else if atStart then ' ' :: ' ' :: c :: indentText false rest
    else c :: indentText false rest

/-- A sample `indent`: an array is joined with line breaks, then every line that is not empty
gets two spaces. -/
def sampleIndent : IndentInput → Text
  | .text s => indentText true s
  | .lines l => indentText true (join (lit "\n") l)

/-- A sample `makeComment`: nothing for no lines, otherwise a block comment. -/
def sampleMakeComment (input : List Text) : Text :=
  if input = [] then []
  else lit "/**\n" ++ join (lit "\n") (input.map (fun l => lit " * " ++ l))
    ++ lit "\n */\n"

/-- A sample `isValidPropertyName`: a non-empty ASCII identifier. -/
def sampleIsValidPropertyName : Text → Bool
  | [] => false
  | c :: rest =>
    (c.isAlpha || c == '_' || c == '$') && rest.all (fun x => x.isAlphanum || x == '_' || x == '$')

/-- The sample environment. -/
def sampleEnv : Env :=
  { allowedParams := sampleAllowedParams
    processParams := sampleProcessParams
    indent := sampleIndent
    makeComment := sampleMakeComment
    isValidPropertyName := sampleIsValidPropertyName
    toUpperCase := fun c => [c.toUpper] }

/-- A sample parameter descriptor without a `schema` property. -/
def sampleParam (name : String) (loc : Loc) (type : String) : Parameter :=
  { name := name.toList, in_ := loc, schema := none, typeDesc := type.toList }

/-- A sample method descriptor with no documentation strings and no enum declaration. -/
def sampleMethod (verb url simpleName : String) (params : Option (List Parameter)) : Method :=
  { url := url.toList, simpleName := simpleName.toList, methodName := verb.toList,
    basePath := lit "/api", summary := none, description := none, swaggerUrl := none,
    paramDef := params, responseDef := { type := lit "Pet", enumDeclaration := none } }

/-! ## Definitions used to state the theorems -/

/-- The descriptors that survive the location filter of a verb with allow-list `allowed`. -/
def retained (allowed : List Loc) (defs : List Parameter) : List Parameter :=
  defs.filter (fun df => allowed.contains df.in_)

/-- The locations of a list in the order in which each is seen first. -/
def firstSeen : List Loc → List Loc
  | [] => []
  | k :: rest => k :: (firstSeen rest).filter (fun x => x ≠ k)

/-- The partition of a descriptor list by location: one group per location, keyed in first-seen
order, each group holding the descriptors of its location in input order. -/
def groupsByLocation (ps : List Parameter) : ParamGroups :=
  (firstSeen (ps.map Parameter.in_)).map (fun k => (k, ps.filter (fun p => p.in_ = k)))

/-- The options argument as the specification words it: the query container and the header
container, each when its group exists, query first, and no argument when neither exists. -/
def optionsArgument (paramTypes : List Loc) : Text :=
  if Loc.query ∈ paramTypes then
    if Loc.header ∈ paramTypes then lit ", \x7bparams: queryParams, headers: headerParams\x7d"
    else lit ", \x7bparams: queryParams\x7d"
  else if Loc.header ∈ paramTypes then lit ", \x7bheaders: headerParams\x7d"
  else []

/-- The body argument as the specification words it: for `post`, `put` and `patch` the filtered
body structure, else the form-data structure, else an empty object literal; nothing for any
other verb. -/
def bodyArgument (paramTypes : List Loc) (methodName : Text) : Text :=
  if methodName = lit "post" ∨ methodName = lit "put" ∨ methodName = lit "patch" then
    if Loc.body ∈ paramTypes then lit ", bodyParamsWithoutUndefined"
    else if Loc.formData ∈ paramTypes then lit ", formDataParams"
    else lit ", \x7b\x7d"
  else []

/-- The statement blocks of location groups none of whose blocks raises. -/
def separationBlocks (env : Env) (groups : ParamGroups) : List Text :=
  groups.map (fun g => (paramSeparationBlock env g.1 g.2).getD [])

/-- The unwrapped overload `processMethod` appends for a filtered descriptor list `paramDef`. -/
def overloadText (env : Env) (method : Method) (unwrap : Bool) (paramDef : List Parameter) : Text :=
  let processedParams :=
    env.processParams paramDef (upperFirst env (method.simpleName ++ lit "Params"))
  if unwrap && decide (processedParams.typesOnly.length > 0) && decide (paramDef.length = 1) then
    (getSplitParamsMethod env method processedParams).getD []
  else []

/-- The values of the `if (method.paramDef)` branch for a filtered descriptor list `paramDef`. -/
def compiledPart (env : Env) (method : Method) (unwrap : Bool) (paramDef : List Parameter) :
    ParamPart :=
  let paramsType := upperFirst env (method.simpleName ++ lit "Params")
  let processedParams := env.processParams paramDef paramsType
  { paramSeparation := separationBlocks env (groupBy paramDef)
    paramsSignature := getParamsSignature processedParams paramsType
    usesGlobalType := processedParams.usesGlobalType
    paramTypes := (groupBy paramDef).map Prod.fst
    paramGroups := groupBy paramDef
    interfaceDef := getInterfaceDef processedParams
    splitParamsMethod := overloadText env method unwrap paramDef }

/-- A URL template cut into pieces: text between placeholders, and placeholders. -/
inductive UrlPart
  | text (s : Text)
  | placeholder (name : Text)

/-- The piece as it stands in the URL template. -/
def UrlPart.source : UrlPart → Text
  | .text s => s
  | .placeholder name => '{' :: name ++ ['}']

/-- The piece as it stands in the rewritten URL. -/
def UrlPart.rewritten : UrlPart → Text
  | .text s => s
  | .placeholder name => lit "$\x7bpathParams." ++ name ++ ['}']

/-- Text between placeholders holds no opening brace; a placeholder name is not empty and holds
no closing brace. -/
def UrlPart.WellFormed : UrlPart → Prop
  | .text s => '{' ∉ s
  | .placeholder name => name ≠ [] ∧ '}' ∉ name

/-! ## Sample inputs -/

/-- A `get` method whose descriptor list holds a `path` parameter and a `body` parameter; the
sample table does not allow `body` for `get`. -/
def getPetWithBody : Method :=
  sampleMethod "get" "/pets/\x7bid\x7d" "getPet"
    (some [sampleParam "id" .path "number", sampleParam "payload" .body "Pet"])

/-- The method `getPetWithBody` with the disallowed `body` parameter removed from `paramDef`. -/
def getPetPathOnly : Method :=
  sampleMethod "get" "/pets/\x7bid\x7d" "getPet" (some [sampleParam "id" .path "number"])

/-- A `post` method whose only parameter is a `body` parameter with a `schema` reference. -/
def addPetWithSchema : Method :=
  sampleMethod "post" "/pets" "addPet"
    (some [{ sampleParam "payload" .body "Pet" with schema := some (lit "#/definitions/Pet") }])

/-- A `get` method with two `path` parameters, a `query` parameter between them, and a
disallowed `body` parameter. -/
def listVisits : Method :=
  sampleMethod "get" "/pets/\x7bid\x7d/visits/\x7bvisit\x7d" "listVisits"
    (some [sampleParam "id" .path "number", sampleParam "payload" .body "Pet",
           sampleParam "limit" .query "number", sampleParam "visit" .path "number"])

/-- A `get` method whose only parameter is a header whose name is not an identifier. -/
def getWithApiKey : Method :=
  sampleMethod "get" "/pets" "listPets" (some [sampleParam "x-api-key" .header "string"])

/-- A schema text in which the placeholder definition `fooDef` is referenced twice. -/
def schemaTwoRefs : Text :=
  lit ("\x7b\"definitions\":\x7b\"fooDef\":\x7b\"type\":\"object\",\"title\":\"object\"\x7d,"
    ++ "\"A\":\x7b\"properties\":\x7b\"p\":\x7b\"$ref\":\"#/definitions/fooDef\"\x7d,"
    ++ "\"q\":\x7b\"$ref\":\"#/definitions/fooDef\"\x7d\x7d\x7d\x7d\x7d")

/-- A schema text in which the same placeholder fragment is the first key of two objects. -/
def schemaTwoFragments : Text :=
  lit ("\x7b\"A\":\x7b\"data\":\x7b\"type\":\"object\",\"title\":\"object\"\x7d,\"x\":1\x7d,"
    ++ "\"B\":\x7b\"data\":\x7b\"type\":\"object\",\"title\":\"object\"\x7d,\"y\":2\x7d\x7d")

/-- The URL template `/pets/{id}` cut into its text and its placeholder. -/
def petUrlParts : List UrlPart :=
  [.text (lit "/pets/"), .placeholder (lit "id")]

/-! ## Further definitions used to state the theorems -/

/-- The descriptors of a method that survive the location filter; none when `paramDef` is
absent. -/
def survivors (allowed : List Loc) (method : Method) : List Parameter :=
  match method.paramDef with
  | none => []
  | some defs => retained allowed defs

/-- The output of the parameter compiler for the surviving descriptors of a method. -/
def processedSurvivors (env : Env) (allowed : List Loc) (method : Method) : ProcessedParams :=
  env.processParams (survivors allowed method) (upperFirst env (method.simpleName ++ lit "Params"))

/-- The parameter type text of a method: the declaration of the parameter compiler unless it
reports an empty interface, and the empty text when `paramDef` is absent. -/
def paramTypeText (env : Env) (allowed : List Loc) (method : Method) : Text :=
  match method.paramDef with
  | none => []
  | some _ =>
    if (processedSurvivors env allowed method).isInterfaceEmpty then []
    else (processedSurvivors env allowed method).paramDef

/-- The values of the variables of `processMethod` after its `if (method.paramDef)` branch, for
a verb with allow-list `allowed`. -/
def methodPart (env : Env) (method : Method) (unwrap : Bool) (allowed : List Loc) : ParamPart :=
  match method.paramDef with
  | none => ParamPart.initial
  | some defs => compiledPart env method unwrap (retained allowed defs)

/-- An optional string that is present and not empty. -/
def presentText : Option Text → Option Text
  | none => none
  | some s => if s = [] then none else some s

/-- The documentation strings of a method that are present and not empty, in the order summary,
description, swaggerUrl. -/
def documentationLines (method : Method) : List Text :=
  [method.summary, method.description, method.swaggerUrl].filterMap presentText

/-- The text of the unwrapped overload of a method with descriptor list `defs` and scalar
declarations `typesOnly`. -/
def unwrappedOverload (env : Env) (method : Method) (defs : List Parameter) (typesOnly : Text) :
    Text :=
  lit "\n" ++ method.simpleName ++ lit "_(" ++ typesOnly ++ lit "): Observable<"
    ++ method.responseDef.type ++ lit "> \x7b\n"
    ++ env.indent (.text (lit "return this." ++ method.simpleName ++ lit "("
        ++ lit "\x7b" ++ join (lit ", ") (defs.map (fun p => p.name)) ++ lit "\x7d"
        ++ lit ");\n"))
    ++ lit "\x7d\n"

/-- The overload `processMethod` emits, as the unwrap gate words it: the unwrapped overload when
the flag is on, exactly one descriptor survives and the scalar declarations are not empty, and
nothing otherwise. -/
def emittedOverload (env : Env) (method : Method) (unwrap : Bool) (allowed : List Loc) : Text :=
  match method.paramDef with
  | none => []
  | some defs =>
    if unwrap = true ∧ (survivors allowed method).length = 1
        ∧ (processedSurvivors env allowed method).typesOnly ≠ [] then
      unwrappedOverload env method defs (processedSurvivors env allowed method).typesOnly
    else []

/-! ## Further sample inputs -/

/-- A `get` method on `/pets/{id}` without a descriptor list. -/
def getPetNoParams : Method :=
  sampleMethod "get" "/pets/\x7bid\x7d" "getPet" none

/-- The method `getPetPathOnly` with a response that carries an enum declaration. -/
def getPetStatus : Method :=
  { getPetPathOnly with
    responseDef := { type := lit "Status",
                     enumDeclaration := some (lit "export enum Status \x7bA\x7d") } }

/-- The method `getPetNoParams` with a response that carries an enum declaration. -/
def getStatusNoParams : Method :=
  { getPetNoParams with
    responseDef := { type := lit "Status",
                     enumDeclaration := some (lit "export enum Status \x7bA\x7d") } }

/-- A schema text with a reference and without any placeholder fragment. -/
def schemaRefsOnly : Text :=
  lit ("\x7b\"A\":\x7b\"properties\":\x7b\"p\":\x7b\"$ref\":\"#/definitions/fooDef\"\x7d\x7d\x7d,"
    ++ "\"fooDef\":\x7b\"type\":\"object\"\x7d\x7d")

/-! ## Lemmas -/

theorem mem_firstSeen (k : Loc) (l : List Loc) : k ∈ firstSeen l ↔ k ∈ l := by
  induction l with
  | nil => simp [firstSeen]
  | cons a l ih =>
    simp only [firstSeen, List.mem_cons, List.mem_filter, ih]
    by_cases h : k = a <;> simp [h]

theorem nodup_firstSeen (l : List Loc) : (firstSeen l).Nodup := by
  induction l with
  | nil => simp [firstSeen]
  | cons a l ih =>
    simp only [firstSeen, List.nodup_cons, List.mem_filter]
    exact ⟨by simp, ih.filter _⟩

theorem firstSeen_concat (l : List Loc) (k : Loc) :
    firstSeen (l ++ [k]) = if k ∈ l then firstSeen l else firstSeen l ++ [k] := by
  induction l with
  | nil => simp [firstSeen]
  | cons a l ih =>
    rw [List.cons_append, firstSeen, ih, firstSeen]
    by_cases hk : k ∈ l
    · simp [hk]
    · by_cases ha : k = a
      · subst ha; simp [hk, List.filter_append]
      · simp [hk, ha, List.filter_append]

theorem groupByInsert_map (ps : List Parameter) (p : Parameter) (ks : List Loc)
    (hnd : ks.Nodup) :
    groupByInsert (ks.map (fun k => (k, ps.filter (fun q => q.in_ = k)))) p
      = if p.in_ ∈ ks then ks.map (fun k => (k, (ps ++ [p]).filter (fun q => q.in_ = k)))
        else ks.map (fun k => (k, (ps ++ [p]).filter (fun q => q.in_ = k))) ++ [(p.in_, [p])] := by
  induction ks with
  | nil => simp [groupByInsert]
  | cons a ks ih =>
    rw [List.nodup_cons] at hnd
    simp only [List.map_cons, groupByInsert]
    by_cases ha : a = p.in_
    · subst ha
      have hrest : ∀ k ∈ ks, (ps ++ [p]).filter (fun q => q.in_ = k)
          = ps.filter (fun q => q.in_ = k) := by
        intro k hk
        have : p.in_ ≠ k := fun h => hnd.1 (h ▸ hk)
        simp [List.filter_append, this]
      have hmap : ks.map (fun k => (k, (ps ++ [p]).filter (fun q => q.in_ = k)))
          = ks.map (fun k => (k, ps.filter (fun q => q.in_ = k))) :=
        List.map_congr_left (fun k hk => by rw [hrest k hk])
      have hmem : ∀ a ∈ ks, ¬ p.in_ = a := fun a h1 h2 => hnd.1 (h2 ▸ h1)
      simp [List.filter_append, hmap]
      exact hmem
    · have ha2 : ¬ p.in_ = a := fun h => ha h.symm
      rw [if_neg ha, ih hnd.2]
      by_cases hk : p.in_ ∈ ks
      · simp [hk, ha2, List.filter_append]
      · simp [hk, ha2, List.filter_append]

theorem groupBy_eq (ps : List Parameter) : groupBy ps = groupsByLocation ps := by
  induction ps using List.reverseRecOn with
  | nil => simp [groupBy, groupsByLocation, firstSeen]
  | append_singleton ps p ih =>
    have hstep : groupBy (ps ++ [p]) = groupByInsert (groupBy ps) p := by
      simp [groupBy, List.foldl_append]
    rw [hstep, ih]
    unfold groupsByLocation
    rw [groupByInsert_map ps p _ (nodup_firstSeen _), List.map_append, List.map_singleton,
      firstSeen_concat]
    by_cases hk : p.in_ ∈ ps.map Parameter.in_
    · have hk2 : p.in_ ∈ firstSeen (ps.map Parameter.in_) := (mem_firstSeen _ _).2 hk
      simp only [hk, hk2, if_true]
    · have hk2 : ¬ p.in_ ∈ firstSeen (ps.map Parameter.in_) := fun h => hk ((mem_firstSeen _ _).1 h)
      simp only [hk, hk2, if_false, List.map_append, List.map_singleton]
      have hnil : ps.filter (fun q => q.in_ = p.in_) = [] := by
        rw [List.filter_eq_nil_iff]
        intro q hq hqe
        apply hk
        simp only [List.mem_map]
        exact ⟨q, hq, by simpa using hqe⟩
      simp [List.filter_append, hnil]

theorem getRequestParams_eq (paramTypes : List Loc) (methodName : Text) :
    getRequestParams paramTypes methodName
      = bodyArgument paramTypes methodName ++ optionsArgument paramTypes := by
  unfold getRequestParams bodyArgument optionsArgument
  by_cases hq : Loc.query ∈ paramTypes <;> by_cases hh : Loc.header ∈ paramTypes <;>
    by_cases hm : methodName = lit "post" ∨ methodName = lit "put" ∨ methodName = lit "patch" <;>
    simp [hq, hh, hm, join] <;> rfl

theorem filterAllowed_some (al : List Loc) (defs : List Parameter) :
    filterAllowed (some al) defs = some (retained al defs) := by
  cases defs <;> simp [filterAllowed, retained]

theorem mapOpt_eq_some {α β : Type} (f : α → Option β) (d : β) (l : List α)
    (h : ∀ a ∈ l, (f a).isSome) : mapOpt f l = some (l.map (fun a => (f a).getD d)) := by
  induction l with
  | nil => rfl
  | cons a l ih =>
    have ha := h a (List.mem_cons_self _ _)
    obtain ⟨b, hb⟩ := Option.isSome_iff_exists.1 ha
    simp [mapOpt, hb, ih (fun x hx => h x (List.mem_cons_of_mem _ hx))]

theorem paramSeparationBlock_isSome (env : Env) (k : Loc) (g : List Parameter) (hg : g ≠ []) :
    (paramSeparationBlock env k g).isSome := by
  cases g with
  | nil => exact absurd rfl hg
  | cons a g =>
    unfold paramSeparationBlock
    by_cases h1 : k = Loc.query
    · simp [h1]
    · by_cases h2 : k = Loc.body
      · simp [h2]
      · simp [h1, h2]

theorem groupBy_group (ps : List Parameter) (g : Loc × List Parameter) (hg : g ∈ groupBy ps) :
    g.1 ∈ ps.map Parameter.in_ ∧ g.2 = ps.filter (fun p => p.in_ = g.1) := by
  rw [groupBy_eq, groupsByLocation, List.mem_map] at hg
  obtain ⟨k, hk, rfl⟩ := hg
  exact ⟨(mem_firstSeen _ _).1 hk, rfl⟩

theorem groupBy_nonempty (ps : List Parameter) (g : Loc × List Parameter) (hg : g ∈ groupBy ps) :
    g.2 ≠ [] := by
  obtain ⟨h1, h2⟩ := groupBy_group ps g hg
  obtain ⟨p, hp, hpk⟩ := List.mem_map.1 h1
  rw [h2]
  intro hnil
  have : p ∈ ps.filter (fun p => p.in_ = g.1) := by simp [List.mem_filter, hp, hpk]
  rw [hnil] at this
  exact absurd this (List.not_mem_nil _)

theorem getParamSeparation_groupBy (env : Env) (ps : List Parameter) :
    getParamSeparation env (groupBy ps) = some (separationBlocks env (groupBy ps)) := by
  unfold getParamSeparation separationBlocks
  exact mapOpt_eq_some _ [] _
    (fun g hg => paramSeparationBlock_isSome env g.1 g.2 (groupBy_nonempty ps g hg))

theorem getSplitParamsMethod_isSome (env : Env) (method : Method) (pp : ProcessedParams)
    (defs : List Parameter) (hdefs : method.paramDef = some defs) :
    ∃ s, getSplitParamsMethod env method pp = some s := by
  simp [getSplitParamsMethod, hdefs]

theorem processParamDef_eq (env : Env) (method : Method) (unwrap : Bool)
    (defs : List Parameter) (al : List Loc) (hdefs : method.paramDef = some defs)
    (hal : env.allowedParams method.methodName = some al) :
    processParamDef env method unwrap = some (compiledPart env method unwrap (retained al defs)) := by
  unfold processParamDef
  simp only [hdefs, hal, filterAllowed_some, getParamSeparation_groupBy]
  unfold compiledPart overloadText
  obtain ⟨s, hs⟩ := getSplitParamsMethod_isSome env method
    (env.processParams (retained al defs) (upperFirst env (method.simpleName ++ lit "Params")))
    defs hdefs
  simp only [hs, Option.getD_some]
  split <;> rfl

theorem processParamDef_absent (env : Env) (method : Method) (unwrap : Bool)
    (hdefs : method.paramDef = none) :
    processParamDef env method unwrap = some ParamPart.initial := by
  simp [processParamDef, hdefs]

theorem processMethod_eq (env : Env) (method : Method) (unwrap : Bool)
    (defs : List Parameter) (al : List Loc) (hdefs : method.paramDef = some defs)
    (hal : env.allowedParams method.methodName = some al) :
    processMethod env method unwrap =
      some { methodDef := composeMethodDef env method
               (compiledPart env method unwrap (retained al defs)) (urlReplace method.url)
               (getRequestParams ((groupBy (retained al defs)).map Prod.fst) method.methodName)
             interfaceDef := composeInterfaceDef method
               (compiledPart env method unwrap (retained al defs)).interfaceDef
             usesGlobalType := (compiledPart env method unwrap (retained al defs)).usesGlobalType
             paramGroups := groupBy (retained al defs)
             responseDef := method.responseDef
             simpleName := method.simpleName
             methodName := method.methodName } := by
  unfold processMethod
  rw [processParamDef_eq env method unwrap defs al hdefs hal]
  rfl

theorem span_length_le {α : Type} (p : α → Bool) (l : List α) :
    (l.span p).2.length ≤ l.length := by
  rw [List.span_eq_take_drop]
  simp [List.dropWhile_suffix p |>.length_le]

theorem urlReplaceAux_fuel (n : Nat) : ∀ (m : Nat) (s : Text), s.length ≤ n → s.length ≤ m →
    urlReplaceAux n s = urlReplaceAux m s := by
  induction n with
  | zero =>
    intro m s hn _
    have : s = [] := List.length_eq_zero.1 (Nat.le_zero.1 hn)
    subst this
    cases m <;> rfl
  | succ n ih =>
    intro m s hn hm
    cases s with
    | nil => cases m <;> rfl
    | cons c rest =>
      cases m with
      | zero => simp at hm
      | succ m =>
        have hn1 : rest.length ≤ n := by simpa using hn
        have hm1 : rest.length ≤ m := by simpa using hm
        simp only [urlReplaceAux]
        rw [ih m rest hn1 hm1]
        have hsp := span_length_le (fun x => x != '}') rest
        rcases hspan : rest.span (fun x => x != '}') with ⟨name, tail⟩
        rw [hspan] at hsp
        cases tail with
        | nil => rfl
        | cons d after =>
          have hlen : after.length ≤ rest.length := by
            simp only [List.length_cons] at hsp; omega
          simp only []
          rw [ih m after (by omega) (by omega)]

theorem span_until_close (name after : Text) (h : '}' ∉ name) :
    (name ++ '}' :: after).span (fun x => x != '}') = (name, '}' :: after) := by
  rw [List.span_eq_take_drop]
  induction name with
  | nil => simp
  | cons a name ih =>
    have ha : a ≠ '}' := fun e => h (e ▸ List.mem_cons_self _ _)
    have hn : '}' ∉ name := fun e => h (List.mem_cons_of_mem _ e)
    have ih2 := ih hn
    simp only [Prod.mk.injEq] at ih2
    simp [List.takeWhile_cons, List.dropWhile_cons, ha, ih2.1, ih2.2]

theorem urlReplace_cons_copy (c : Char) (rest : Text) (hc : c ≠ '{') :
    urlReplace (c :: rest) = c :: urlReplace rest := by
  simp [urlReplace, urlReplaceAux, hc]

theorem urlReplace_text_append (s t : Text) (hs : '{' ∉ s) :
    urlReplace (s ++ t) = s ++ urlReplace t := by
  induction s with
  | nil => rfl
  | cons a s ih =>
    have ha : a ≠ '{' := fun e => hs (e ▸ List.mem_cons_self _ _)
    have hn : '{' ∉ s := fun e => hs (List.mem_cons_of_mem _ e)
    rw [List.cons_append, urlReplace_cons_copy _ _ ha, ih hn, List.cons_append]

theorem urlReplace_placeholder (name after : Text) (hne : name ≠ []) (hclose : '}' ∉ name) :
    urlReplace ('{' :: name ++ '}' :: after)
      = lit "$\x7bpathParams." ++ name ++ '}' :: urlReplace after := by
  unfold urlReplace
  rw [List.cons_append, List.length_cons]
  simp only [urlReplaceAux, if_true, span_until_close name after hclose, if_neg hne]
  rw [urlReplaceAux_fuel _ after.length after (by simp; omega) (le_refl _)]

theorem urlReplace_parts (parts : List UrlPart) (hwf : ∀ p ∈ parts, p.WellFormed) :
    urlReplace (parts.map UrlPart.source).flatten = (parts.map UrlPart.rewritten).flatten := by
  induction parts with
  | nil => rfl
  | cons p parts ih =>
    have hp := hwf p (List.mem_cons_self _ _)
    have ih2 := ih (fun q hq => hwf q (List.mem_cons_of_mem _ hq))
    cases p with
    | text s =>
      simp only [List.map_cons, List.flatten_cons, UrlPart.source, UrlPart.rewritten]
      rw [urlReplace_text_append _ _ hp, ih2]
    | placeholder name =>
      simp only [List.map_cons, List.flatten_cons, UrlPart.source, UrlPart.rewritten]
      have h := urlReplace_placeholder name (parts.map UrlPart.source).flatten hp.1 hp.2
      simp only [List.cons_append, List.append_assoc, List.singleton_append, List.nil_append]
        at h ⊢
      rw [h, ih2]

theorem processParamDef_total (env : Env) (method : Method) (unwrap : Bool) (al : List Loc)
    (hal : env.allowedParams method.methodName = some al) :
    ∃ part, processParamDef env method unwrap = some part := by
  cases hdefs : method.paramDef with
  | none => exact ⟨_, processParamDef_absent env method unwrap hdefs⟩
  | some defs => exact ⟨_, processParamDef_eq env method unwrap defs al hdefs hal⟩

theorem processMethod_of_part (env : Env) (method : Method) (unwrap : Bool) (part : ParamPart)
    (hpart : processParamDef env method unwrap = some part) :
    processMethod env method unwrap =
      some { methodDef := composeMethodDef env method part (urlReplace method.url)
               (getRequestParams part.paramTypes method.methodName)
             interfaceDef := composeInterfaceDef method part.interfaceDef
             usesGlobalType := part.usesGlobalType
             paramGroups := part.paramGroups
             responseDef := method.responseDef
             simpleName := method.simpleName
             methodName := method.methodName } := by
  unfold processMethod
  rw [hpart]

theorem paramSeparationBlock_path (env : Env) (group : List Parameter) :
    paramSeparationBlock env Loc.path group
      = some (lit "const pathParams = \x7b\n"
          ++ env.indent (.lines (group.map (fun p => setObjectProps env p.name)))
          ++ lit "\n\x7d;") := by
  simp only [paramSeparationBlock, Loc.toText, reduceCtorEq, if_false, Option.some.injEq]
  simp only [List.append_assoc]
  rfl

theorem paramSeparationBlock_body_schema (env : Env) (first : Parameter)
    (others : List Parameter) (hschema : first.schema.isSome) :
    paramSeparationBlock env Loc.body (first :: others)
      = some (lit "const bodyParams = params." ++ first.name ++ lit ";\n"
          ++ lit "const bodyParamsWithoutUndefined: any = \x7b\x7d;\n"
          ++ lit "Object.entries(bodyParams || \x7b\x7d).forEach(([key, value]) => \x7b\n"
          ++ lit "  if (value !== undefined) bodyParamsWithoutUndefined[key] = value;\n"
          ++ lit "\x7d);") := by
  simp only [paramSeparationBlock, Loc.toText, reduceCtorEq, if_false, if_true, hschema,
    Option.some.injEq]
  simp only [List.append_assoc]
  rfl

theorem forall₂_separationBlocks (env : Env) (groups : ParamGroups)
    (h : ∀ g ∈ groups, g.2 ≠ []) :
    List.Forall₂ (fun g b => paramSeparationBlock env g.1 g.2 = some b)
      groups (separationBlocks env groups) := by
  induction groups with
  | nil => exact List.Forall₂.nil
  | cons g groups ih =>
    obtain ⟨b, hb⟩ := Option.isSome_iff_exists.1
      (paramSeparationBlock_isSome env g.1 g.2 (h g (List.mem_cons_self _ _)))
    have ih2 := ih (fun x hx => h x (List.mem_cons_of_mem _ hx))
    unfold separationBlocks at ih2 ⊢
    rw [List.map_cons, hb]
    exact List.Forall₂.cons hb ih2

/-! ## Further lemmas -/

theorem processParamDef_methodPart (env : Env) (method : Method) (unwrap : Bool)
    (al : List Loc) (hal : env.allowedParams method.methodName = some al) :
    processParamDef env method unwrap = some (methodPart env method unwrap al) := by
  unfold methodPart
  cases hdefs : method.paramDef with
  | none => exact processParamDef_absent env method unwrap hdefs
  | some defs => exact processParamDef_eq env method unwrap defs al hdefs hal

theorem processMethod_methodPart (env : Env) (method : Method) (unwrap : Bool)
    (al : List Loc) (hal : env.allowedParams method.methodName = some al) :
    processMethod env method unwrap =
      some { methodDef := composeMethodDef env method (methodPart env method unwrap al)
               (urlReplace method.url)
               (getRequestParams (methodPart env method unwrap al).paramTypes method.methodName)
             interfaceDef := composeInterfaceDef method (methodPart env method unwrap al).interfaceDef
             usesGlobalType := (methodPart env method unwrap al).usesGlobalType
             paramGroups := (methodPart env method unwrap al).paramGroups
             responseDef := method.responseDef
             simpleName := method.simpleName
             methodName := method.methodName } :=
  processMethod_of_part env method unwrap _ (processParamDef_methodPart env method unwrap al hal)

theorem methodPart_paramGroups (env : Env) (method : Method) (unwrap : Bool) (al : List Loc) :
    (methodPart env method unwrap al).paramGroups = groupBy (survivors al method) := by
  unfold methodPart survivors
  cases method.paramDef <;> rfl

theorem methodPart_paramTypes (env : Env) (method : Method) (unwrap : Bool) (al : List Loc) :
    (methodPart env method unwrap al).paramTypes = (groupBy (survivors al method)).map Prod.fst := by
  unfold methodPart survivors
  cases method.paramDef <;> rfl

theorem methodPart_paramSeparation (env : Env) (method : Method) (unwrap : Bool)
    (al : List Loc) :
    (methodPart env method unwrap al).paramSeparation
      = separationBlocks env (groupBy (survivors al method)) := by
  unfold methodPart survivors
  cases method.paramDef <;> rfl

theorem methodPart_interfaceDef (env : Env) (method : Method) (unwrap : Bool) (al : List Loc) :
    (methodPart env method unwrap al).interfaceDef = paramTypeText env al method := by
  unfold methodPart paramTypeText processedSurvivors survivors
  cases h : method.paramDef with
  | none => rfl
  | some defs =>
    simp only [compiledPart, getInterfaceDef]
    cases (env.processParams (retained al defs)
      (upperFirst env (method.simpleName ++ lit "Params"))).isInterfaceEmpty <;> rfl

theorem methodPart_paramsSignature (env : Env) (method : Method) (unwrap : Bool)
    (al : List Loc) :
    (methodPart env method unwrap al).paramsSignature
      = match method.paramDef with
        | none => []
        | some _ =>
          if (processedSurvivors env al method).isInterfaceEmpty then []
          else lit "params: " ++ upperFirst env (method.simpleName ++ lit "Params") := by
  unfold methodPart processedSurvivors survivors
  cases h : method.paramDef with
  | none => rfl
  | some defs =>
    simp only [compiledPart, getParamsSignature]
    cases (env.processParams (retained al defs)
      (upperFirst env (method.simpleName ++ lit "Params"))).isInterfaceEmpty <;> rfl

theorem methodPart_splitParamsMethod (env : Env) (method : Method) (unwrap : Bool)
    (al : List Loc) :
    (methodPart env method unwrap al).splitParamsMethod = emittedOverload env method unwrap al := by
  unfold methodPart emittedOverload processedSurvivors survivors
  cases h : method.paramDef with
  | none => rfl
  | some defs =>
    simp only [compiledPart, overloadText, getSplitParamsMethod, getSplitParamsSignature,
      getPropertyAssignments, unwrappedOverload, h, Option.getD_some]
    by_cases hu : unwrap = true
    · by_cases hl : (retained al defs).length = 1
      · by_cases ht : (env.processParams (retained al defs)
            (upperFirst env (method.simpleName ++ lit "Params"))).typesOnly = []
        · simp [hu, hl, ht]
        · have hpos : 0 < (env.processParams (retained al defs)
              (upperFirst env (method.simpleName ++ lit "Params"))).typesOnly.length :=
            List.length_pos.2 ht
          simp [hu, hl, ht, hpos]
      · simp [hu, hl]
    · simp [hu]

theorem filterBoolean_filterMap (l : List (Option Text)) :
    filterBoolean l = l.filterMap presentText := by
  induction l with
  | nil => rfl
  | cons x l ih =>
    cases x with
    | none => simp only [filterBoolean, List.filterMap_cons, presentText, ih]
    | some s =>
      by_cases hs : s = []
      · simp only [filterBoolean, List.filterMap_cons, presentText, ih, hs, if_true]
      · simp only [filterBoolean, List.filterMap_cons, presentText, ih, hs, if_false]

theorem filterBoolean_eq (method : Method) :
    filterBoolean [method.summary, method.description, method.swaggerUrl]
      = documentationLines method :=
  filterBoolean_filterMap _

theorem composeMethodDef_eq (env : Env) (method : Method) (part : ParamPart)
    (url params : Text) :
    composeMethodDef env method part url params
      = lit "\n" ++ env.makeComment (documentationLines method)
        ++ (method.simpleName ++ lit "(" ++ part.paramsSignature ++ lit "): Observable<"
            ++ method.responseDef.type ++ lit "> \x7b\n")
        ++ env.indent (.lines part.paramSeparation)
        ++ (if part.paramSeparation = [] then [] else lit "\n")
        ++ env.indent (.text (lit "return this.http." ++ method.methodName ++ lit "<"
            ++ method.responseDef.type ++ lit ">" ++ lit "(\x60" ++ method.basePath ++ url
            ++ lit "\x60" ++ params ++ lit ");"))
        ++ lit "\n" ++ lit "\x7d" ++ part.splitParamsMethod := by
  unfold composeMethodDef returnStatement
  rw [filterBoolean_eq]
  by_cases h : part.paramSeparation = []
  · simp [h]
  · have h2 : part.paramSeparation.length ≠ 0 := fun e => h (List.length_eq_zero.1 e)
    simp [h, h2]

theorem emittedOverload_off (env : Env) (method : Method) (al : List Loc) :
    emittedOverload env method false al = [] := by
  unfold emittedOverload
  cases method.paramDef <;> simp

theorem upperFirst_params (env : Env) (s : Text) (hupper : env.toUpperCase 'P' = ['P']) :
    upperFirst env (s ++ lit "Params") = upperFirst env s ++ lit "Params" := by
  cases s with
  | nil =>
    show upperFirst env ('P' :: lit "arams") = lit "Params"
    rw [upperFirst, hupper]
    rfl
  | cons c s => simp [upperFirst]

theorem separationBlocks_eq_nil (env : Env) (groups : ParamGroups) :
    separationBlocks env groups = [] ↔ groups = [] := by
  unfold separationBlocks
  exact List.map_eq_nil_iff

/-! ## Lemmas on the base path -/

theorem eq_replicate_of_all_slash (l : Text) (h : l.all (fun x => x == '/') = true) :
    l = List.replicate l.length '/' := by
  rw [List.eq_replicate_iff]
  refine ⟨rfl, fun b hb => ?_⟩
  have := List.all_eq_true.1 h b hb
  simpa using this

theorem stripTrailingSlashes_append (s : Text) :
    ∃ k, s = stripTrailingSlashes s ++ List.replicate k '/' := by
  induction s with
  | nil => exact ⟨0, rfl⟩
  | cons c rest ih =>
    unfold stripTrailingSlashes
    by_cases hc : (c == '/' && rest.all (fun x => x == '/')) = true
    · rw [if_pos hc]
      rw [Bool.and_eq_true] at hc
      have h1 : c = '/' := by simpa using hc.1
      refine ⟨rest.length + 1, ?_⟩
      rw [List.nil_append, List.replicate_succ, ← eq_replicate_of_all_slash rest hc.2, h1]
    · rw [if_neg hc]
      obtain ⟨k, hk⟩ := ih
      exact ⟨k, by rw [List.cons_append, ← hk]⟩

theorem stripTrailingSlashes_getLast (s : Text) :
    (stripTrailingSlashes s).getLast? ≠ some '/' := by
  induction s with
  | nil => simp [stripTrailingSlashes]
  | cons c rest ih =>
    unfold stripTrailingSlashes
    by_cases hc : (c == '/' && rest.all (fun x => x == '/')) = true
    · rw [if_pos hc]; simp
    · rw [if_neg hc]
      cases hr : stripTrailingSlashes rest with
      | nil =>
        obtain ⟨k, hk⟩ := stripTrailingSlashes_append rest
        rw [hr, List.nil_append] at hk
        have hall : rest.all (fun x => x == '/') = true := by
          rw [hk, List.all_eq_true]
          intro x hx
          simp [List.eq_of_mem_replicate hx]
        have hne : c ≠ '/' := by
          intro e
          apply hc
          simp [e, hall]
        simpa using hne
      | cons d l =>
        rw [hr] at ih
        rw [List.getLast?_cons_cons]
        exact ih

theorem stripTrailingSlashes_fixed (t : Text) (h : t.getLast? ≠ some '/') :
    stripTrailingSlashes t = t := by
  induction t with
  | nil => rfl
  | cons c rest ih =>
    unfold stripTrailingSlashes
    by_cases hc : (c == '/' && rest.all (fun x => x == '/')) = true
    · exfalso
      rw [Bool.and_eq_true] at hc
      have h1 : c = '/' := by simpa using hc.1
      apply h
      cases rest with
      | nil => simp [h1]
      | cons d l =>
        have hrep := eq_replicate_of_all_slash (d :: l) hc.2
        rw [List.getLast?_cons_cons, hrep, List.length_cons, List.replicate_succ']
        simp
    · rw [if_neg hc]
      cases rest with
      | nil => rfl
      | cons d l =>
        rw [List.getLast?_cons_cons] at h
        rw [ih h]

theorem dropWhile_replicate_append (k : Nat) (l : Text) :
    (List.replicate k '/' ++ l).dropWhile (fun x => x == '/') = l.dropWhile (fun x => x == '/') := by
  induction k with
  | zero => rfl
  | succ k ih =>
    rw [List.replicate_succ, List.cons_append, List.dropWhile_cons]
    simp [ih]

theorem dropWhile_reverse_fixed (p : Text) (h : p.getLast? ≠ some '/') :
    p.reverse.dropWhile (fun x => x == '/') = p.reverse := by
  cases hr : p.reverse with
  | nil => rfl
  | cons d l =>
    have hp : p = (d :: l).reverse := by rw [← hr, List.reverse_reverse]
    have hd : d ≠ '/' := by
      intro e
      apply h
      rw [hp, List.getLast?_reverse]
      simp [e]
    rw [List.dropWhile_cons]
    simp [hd]

theorem stripTrailingSlashes_eq_dropWhile (s : Text) :
    stripTrailingSlashes s = (s.reverse.dropWhile (fun x => x == '/')).reverse := by
  obtain ⟨k, hk⟩ := stripTrailingSlashes_append s
  have h := stripTrailingSlashes_getLast s
  conv_rhs => rw [hk]
  rw [List.reverse_append, List.reverse_replicate, dropWhile_replicate_append,
    dropWhile_reverse_fixed _ h, List.reverse_reverse]

/-! ## Lemmas on the placeholder pattern -/

theorem dropPrefix?_append (p r : Text) : dropPrefix? p (p ++ r) = some r := by
  induction p with
  | nil => cases r <;> rfl
  | cons a p ih => simp [dropPrefix?, ih]

theorem dropPrefix?_some (p : Text) : ∀ (s r : Text), dropPrefix? p s = some r → s = p ++ r := by
  induction p with
  | nil =>
    intro s r h
    cases s <;> simp_all [dropPrefix?]
  | cons a p ih =>
    intro s r h
    cases s with
    | nil => simp [dropPrefix?] at h
    | cons c s =>
      by_cases hac : a = c
      · subst hac
        simp only [dropPrefix?, if_true] at h
        rw [List.cons_append, ← ih s r h]
      · simp [dropPrefix?, hac] at h

theorem span_eq (p : Char → Bool) (l a b : Text) (h : l.span p = (a, b)) :
    l = a ++ b ∧ ∀ c ∈ a, p c = true := by
  rw [List.span_eq_take_drop] at h
  simp only [Prod.mk.injEq] at h
  obtain ⟨ha, hb⟩ := h
  subst ha hb
  exact ⟨(List.takeWhile_append_dropWhile p l).symm, fun c hc => List.mem_takeWhile_imp hc⟩

theorem span_append_stop (p : Char → Bool) (a : Text) (d : Char) (b : Text)
    (ha : ∀ c ∈ a, p c = true) (hd : p d = false) :
    (a ++ d :: b).span p = (a, d :: b) := by
  rw [List.span_eq_take_drop]
  induction a with
  | nil => simp [List.takeWhile_cons, List.dropWhile_cons, hd]
  | cons c a ih =>
    have hc : p c = true := ha c (List.mem_cons_self _ _)
    have ih2 := ih (fun x hx => ha x (List.mem_cons_of_mem _ hx))
    simp only [Prod.mk.injEq] at ih2
    simp [List.takeWhile_cons, List.dropWhile_cons, hc, ih2.1, ih2.2]

theorem fragment_append (key type title rest : Text) :
    fragment key type title ++ rest
      = lit "\"" ++ (key ++ ('"' :: (lit ":\x7b\"type\":\"" ++ (type ++ ('"' :: (lit ",\"title\":\""
          ++ (title ++ ('"' :: (lit "\x7d" ++ rest))))))))) := by
  unfold fragment
  simp only [List.append_assoc]
  rfl

theorem isWordChar_quote : isWordChar '"' = false := by decide

theorem matchAt_complete (key type title rest : Text)
    (hkey : ∀ c ∈ key, isWordChar c = true) (htype : ∀ c ∈ type, isWordChar c = true)
    (htitle : ∀ c ∈ title, isWordChar c = true) :
    matchAt (fragment key type title ++ rest) = some (fragment key type title, key, rest) := by
  rw [fragment_append]
  unfold matchAt
  rw [dropPrefix?_append]
  simp only []
  rw [span_append_stop isWordChar key '"' _ hkey isWordChar_quote]
  simp only []
  have h1 : ∀ x : Text, dropPrefix? (lit "\":\x7b\"type\":\"") ('"' :: (lit ":\x7b\"type\":\"" ++ x))
      = some x := fun x => dropPrefix?_append (lit "\":\x7b\"type\":\"") x
  rw [h1]
  simp only []
  rw [span_append_stop isWordChar type '"' _ htype isWordChar_quote]
  simp only []
  have h2 : ∀ x : Text, dropPrefix? (lit "\",\"title\":\"") ('"' :: (lit ",\"title\":\"" ++ x))
      = some x := fun x => dropPrefix?_append (lit "\",\"title\":\"") x
  rw [h2]
  simp only []
  rw [span_append_stop isWordChar title '"' _ htitle isWordChar_quote]
  simp only []
  have h3 : ∀ x : Text, dropPrefix? (lit "\"\x7d") ('"' :: (lit "\x7d" ++ x)) = some x :=
    fun x => dropPrefix?_append (lit "\"\x7d") x
  rw [h3]

theorem matchAt_sound (s m key rest : Text) (h : matchAt s = some (m, key, rest)) :
    ∃ type title, (∀ c ∈ key, isWordChar c = true) ∧ (∀ c ∈ type, isWordChar c = true)
      ∧ (∀ c ∈ title, isWordChar c = true) ∧ m = fragment key type title ∧ s = m ++ rest := by
  unfold matchAt at h
  cases h1 : dropPrefix? (lit "\"") s with
  | none => rw [h1] at h; simp at h
  | some s1 =>
    rw [h1] at h
    simp only [] at h
    obtain ⟨e2, w1⟩ := span_eq isWordChar s1 (List.span isWordChar s1).1 (List.span isWordChar s1).2 rfl
    generalize (List.span isWordChar s1).1 = k at h e2 w1
    generalize (List.span isWordChar s1).2 = s2 at h e2
    cases h2 : dropPrefix? (lit "\":\x7b\"type\":\"") s2 with
    | none => rw [h2] at h; simp at h
    | some s3 =>
      rw [h2] at h
      simp only [] at h
      obtain ⟨e4, w2⟩ := span_eq isWordChar s3 (List.span isWordChar s3).1 (List.span isWordChar s3).2 rfl
      generalize (List.span isWordChar s3).1 = t at h e4 w2
      generalize (List.span isWordChar s3).2 = s4 at h e4
      cases h3 : dropPrefix? (lit "\",\"title\":\"") s4 with
      | none => rw [h3] at h; simp at h
      | some s5 =>
        rw [h3] at h
        simp only [] at h
        obtain ⟨e6, w3⟩ := span_eq isWordChar s5 (List.span isWordChar s5).1 (List.span isWordChar s5).2 rfl
        generalize (List.span isWordChar s5).1 = u at h e6 w3
        generalize (List.span isWordChar s5).2 = s6 at h e6
        cases h4 : dropPrefix? (lit "\"\x7d") s6 with
        | none => rw [h4] at h; simp at h
        | some s7 =>
          rw [h4] at h
          simp only [Option.some.injEq, Prod.mk.injEq] at h
          obtain ⟨hm, hk, hr⟩ := h
          subst hm hk hr
          have e1 := dropPrefix?_some _ _ _ h1
          have e3 := dropPrefix?_some _ _ _ h2
          have e5 := dropPrefix?_some _ _ _ h3
          have e7 := dropPrefix?_some _ _ _ h4
          refine ⟨t, u, w1, w2, w3, rfl, ?_⟩
          rw [e1, e2, e3, e4, e5, e6, e7]
          unfold fragment
          simp only [List.append_assoc]

/-! ## Lemmas on the parse of a matched fragment -/

theorem alphanum_bounds (c : Char) (h : c.isAlphanum = true) :
    (65 ≤ c.toNat ∧ c.toNat ≤ 90) ∨ (97 ≤ c.toNat ∧ c.toNat ≤ 122)
      ∨ (48 ≤ c.toNat ∧ c.toNat ≤ 57) := by
  simp only [Char.isAlphanum, Char.isAlpha, Char.isUpper, Char.isLower, Char.isDigit,
    Bool.or_eq_true, Bool.and_eq_true, decide_eq_true_eq] at h
  simp only [ge_iff_le, UInt32.le_def, Fin.le_def] at h
  rcases h with (h | h) | h
  · left; exact h
  · right; left; exact h
  · right; right; exact h

theorem jsonStringChar_of_isWordChar (c : Char) (h : isWordChar c = true) :
    jsonStringChar c = true := by
  unfold isWordChar at h
  simp only [Bool.or_eq_true, beq_iff_eq] at h
  have key : c ≠ '"' ∧ c ≠ '\\' ∧ 32 ≤ c.toNat := by
    rcases h with ((h | h) | h) | h
    · have hb := alphanum_bounds c h
      refine ⟨?_, ?_, by omega⟩
      · rintro rfl; revert hb; decide
      · rintro rfl; revert hb; decide
    · subst h; decide
    · subst h; decide
    · subst h; decide
  unfold jsonStringChar
  simp [key.1, key.2.1, key.2.2]

theorem dropPrefix?_char (c : Char) (x : Text) : dropPrefix? [c] (c :: x) = some x := by
  cases x <;> simp [dropPrefix?]

theorem dropPrefix?_char_ne (c d : Char) (x : Text) (h : c ≠ d) :
    dropPrefix? [c] (d :: x) = none := by
  simp [dropPrefix?, h]

theorem parseJsonString_quoted (t rest : Text) (ht : ∀ c ∈ t, jsonStringChar c = true) :
    parseJsonString ('"' :: (t ++ '"' :: rest)) = some (t, rest) := by
  unfold parseJsonString
  have h1 : dropPrefix? (lit "\"") ('"' :: (t ++ '"' :: rest)) = some (t ++ '"' :: rest) :=
    dropPrefix?_char '"' _
  rw [h1]
  simp only []
  rw [span_append_stop jsonStringChar t '"' rest ht (by decide)]
  simp only []
  have h2 : dropPrefix? (lit "\"") ('"' :: rest) = some rest := dropPrefix?_char '"' _
  rw [h2]

theorem parseJsonString_brace (x : Text) : parseJsonString ('{' :: x) = none := by
  unfold parseJsonString
  have h1 : dropPrefix? (lit "\"") ('{' :: x) = none := dropPrefix?_char_ne '"' '{' x (by decide)
  rw [h1]

theorem parseJsonValue_string (fuel : Nat) (t rest : Text)
    (ht : ∀ c ∈ t, jsonStringChar c = true) :
    parseJsonValue (fuel + 1) ('"' :: (t ++ '"' :: rest)) = some (.str t, rest) := by
  rw [parseJsonValue, parseJsonString_quoted t rest ht]

theorem parseJsonMembers_last (fuel : Nat) (name t rest : Text)
    (hname : ∀ c ∈ name, jsonStringChar c = true) (ht : ∀ c ∈ t, jsonStringChar c = true) :
    parseJsonMembers (fuel + 2)
        ('"' :: (name ++ '"' :: ':' :: '"' :: (t ++ '"' :: '\x7d' :: rest)))
      = some ([(name, .str t)], rest) := by
  rw [parseJsonMembers, parseJsonString_quoted name _ hname]
  simp only []
  have h1 : ∀ x : Text, dropPrefix? (lit ":") (':' :: x) = some x := fun x => dropPrefix?_char ':' x
  rw [h1]
  simp only []
  rw [parseJsonValue_string fuel t _ ht]
  simp only []
  have h2 : dropPrefix? (lit ",") ('\x7d' :: rest) = none :=
    dropPrefix?_char_ne ',' '\x7d' rest (by decide)
  have h3 : dropPrefix? (lit "\x7d") ('\x7d' :: rest) = some rest := dropPrefix?_char '\x7d' rest
  rw [h2]
  simp only []
  rw [h3]

theorem parseJsonMembers_two (fuel : Nat) (name1 t1 name2 t2 rest : Text)
    (hname1 : ∀ c ∈ name1, jsonStringChar c = true) (ht1 : ∀ c ∈ t1, jsonStringChar c = true)
    (hname2 : ∀ c ∈ name2, jsonStringChar c = true) (ht2 : ∀ c ∈ t2, jsonStringChar c = true) :
    parseJsonMembers (fuel + 3)
        ('"' :: (name1 ++ '"' :: ':' :: '"' :: (t1 ++ '"' :: ',' ::
          '"' :: (name2 ++ '"' :: ':' :: '"' :: (t2 ++ '"' :: '\x7d' :: rest)))))
      = some ([(name1, .str t1), (name2, .str t2)], rest) := by
  rw [parseJsonMembers, parseJsonString_quoted name1 _ hname1]
  simp only []
  have h1 : ∀ x : Text, dropPrefix? (lit ":") (':' :: x) = some x := fun x => dropPrefix?_char ':' x
  rw [h1]
  simp only []
  rw [parseJsonValue_string (fuel + 1) t1 _ ht1]
  simp only []
  have h2 : ∀ x : Text, dropPrefix? (lit ",") (',' :: x) = some x := fun x => dropPrefix?_char ',' x
  rw [h2]
  simp only []
  rw [parseJsonMembers_last fuel name2 t2 rest hname2 ht2]

theorem parseJsonValue_object (fuel : Nat) (x : Text) (members : List (Text × Json))
    (rest : Text) (hx : parseJsonMembers fuel ('"' :: x) = some (members, rest)) :
    parseJsonValue (fuel + 1) ('\x7b' :: '"' :: x) = some (.obj members, rest) := by
  rw [parseJsonValue, parseJsonString_brace]
  simp only []
  have h1 : dropPrefix? (lit "\x7b") ('\x7b' :: '"' :: x) = some ('"' :: x) :=
    dropPrefix?_char '\x7b' _
  have h2 : dropPrefix? (lit "\x7d") ('"' :: x) = none :=
    dropPrefix?_char_ne '\x7d' '"' x (by decide)
  rw [h1]
  simp only []
  rw [h2]
  simp only []
  rw [hx]

theorem wrapped_fragment (key type title : Text) :
    lit "\x7b" ++ fragment key type title ++ lit "\x7d"
      = '\x7b' :: '"' :: (key ++ '"' :: ':' :: '\x7b' ::
          '"' :: (lit "type" ++ '"' :: ':' :: '"' :: (type ++ '"' :: ',' ::
          '"' :: (lit "title" ++ '"' :: ':' :: '"' :: (title ++ '"' :: '\x7d' :: '\x7d' :: []))))) := by
  unfold fragment
  simp only [List.append_assoc]
  rfl

theorem wrapped_fragment_length (key type title : Text) :
    ∃ fuel, (lit "\x7b" ++ fragment key type title ++ lit "\x7d").length + 1 = fuel + 6 := by
  refine ⟨key.length + type.length + title.length + 22, ?_⟩
  rw [wrapped_fragment]
  simp only [List.length_cons, List.length_append, List.length_nil]
  have h1 : (lit "type").length = 4 := rfl
  have h2 : (lit "title").length = 5 := rfl
  omega

theorem jsonParse_wrapped_fragment (key type title : Text)
    (hkey : ∀ c ∈ key, isWordChar c = true) (htype : ∀ c ∈ type, isWordChar c = true)
    (htitle : ∀ c ∈ title, isWordChar c = true) :
    jsonParse (lit "\x7b" ++ fragment key type title ++ lit "\x7d")
      = some (.obj [(key, .obj [(lit "type", .str type), (lit "title", .str title)])]) := by
  have jk : ∀ c ∈ key, jsonStringChar c = true :=
    fun c hc => jsonStringChar_of_isWordChar c (hkey c hc)
  have jt : ∀ c ∈ type, jsonStringChar c = true :=
    fun c hc => jsonStringChar_of_isWordChar c (htype c hc)
  have ju : ∀ c ∈ title, jsonStringChar c = true :=
    fun c hc => jsonStringChar_of_isWordChar c (htitle c hc)
  obtain ⟨fuel, hfuel⟩ := wrapped_fragment_length key type title
  unfold jsonParse
  rw [hfuel, wrapped_fragment]
  have hinner : parseJsonValue (fuel + 4)
      ('\x7b' :: '"' :: (lit "type" ++ '"' :: ':' :: '"' :: (type ++ '"' :: ',' ::
          '"' :: (lit "title" ++ '"' :: ':' :: '"' :: (title ++ '"' :: '\x7d' :: '\x7d' :: [])))))
      = some (.obj [(lit "type", .str type), (lit "title", .str title)], ['\x7d']) :=
    parseJsonValue_object (fuel + 3) _ _ _
      (parseJsonMembers_two fuel (lit "type") type (lit "title") title ['\x7d']
        (by decide) jt (by decide) ju)
  have hmembers : parseJsonMembers (fuel + 5)
      ('"' :: (key ++ '"' :: ':' :: '\x7b' ::
          '"' :: (lit "type" ++ '"' :: ':' :: '"' :: (type ++ '"' :: ',' ::
          '"' :: (lit "title" ++ '"' :: ':' :: '"' :: (title ++ '"' :: '\x7d' :: '\x7d' :: []))))))
      = some ([(key, .obj [(lit "type", .str type), (lit "title", .str title)])], []) := by
    rw [parseJsonMembers, parseJsonString_quoted key _ jk]
    simp only []
    have h1 : ∀ x : Text, dropPrefix? (lit ":") (':' :: x) = some x :=
      fun x => dropPrefix?_char ':' x
    rw [h1]
    simp only []
    rw [hinner]
    simp only []
    have h2 : dropPrefix? (lit ",") ['\x7d'] = none := dropPrefix?_char_ne ',' '\x7d' [] (by decide)
    have h3 : dropPrefix? (lit "\x7d") ['\x7d'] = some [] := dropPrefix?_char '\x7d' []
    rw [h2]
    simp only []
    rw [h3]
  rw [parseJsonValue_object (fuel + 5) _ _ _ hmembers]

theorem defNameOf_fragment (key type title : Text)
    (hkey : ∀ c ∈ key, isWordChar c = true) (htype : ∀ c ∈ type, isWordChar c = true)
    (htitle : ∀ c ∈ title, isWordChar c = true) :
    defNameOf (fragment key type title) = some key := by
  unfold defNameOf
  rw [jsonParse_wrapped_fragment key type title hkey htype htitle]

theorem defNameOf_match (s m key rest : Text) (h : matchAt s = some (m, key, rest)) :
    defNameOf m = some key := by
  obtain ⟨type, title, hk, ht, hu, hm, -⟩ := matchAt_sound s m key rest h
  rw [hm]
  exact defNameOf_fragment key type title hk ht hu

theorem fragment_length (key type title : Text) :
    (fragment key type title).length = key.length + type.length + title.length + 25 := by
  unfold fragment
  simp only [List.length_append]
  have h1 : (lit "\"").length = 1 := rfl
  have h2 : (lit "\":\x7b\"type\":\"").length = 11 := rfl
  have h3 : (lit "\",\"title\":\"").length = 11 := rfl
  have h4 : (lit "\"\x7d").length = 2 := rfl
  omega

theorem matchAt_advances (s m key rest : Text) (h : matchAt s = some (m, key, rest)) :
    m ≠ [] ∧ s = m ++ rest ∧ rest.length < s.length := by
  obtain ⟨type, title, -, -, -, hm, hs⟩ := matchAt_sound s m key rest h
  have hlen : 0 < m.length := by rw [hm, fragment_length]; omega
  refine ⟨List.length_pos.1 hlen, hs, ?_⟩
  rw [hs, List.length_append]
  omega

theorem execAll_fuel (n : Nat) : ∀ (m : Nat) (s : Text), s.length ≤ n → s.length ≤ m →
    execAll n s = execAll m s := by
  induction n with
  | zero =>
    intro m s hn _
    have : s = [] := List.length_eq_zero.1 (Nat.le_zero.1 hn)
    subst this
    cases m <;> rfl
  | succ n ih =>
    intro m s hn hm
    cases s with
    | nil => cases m <;> rfl
    | cons c rest =>
      cases m with
      | zero => simp at hm
      | succ m =>
        have hn1 : rest.length ≤ n := by simpa using hn
        have hm1 : rest.length ≤ m := by simpa using hm
        simp only [execAll]
        cases hmatch : matchAt (c :: rest) with
        | none => exact ih m rest hn1 hm1
        | some found =>
          obtain ⟨m0, defName, after⟩ := found
          have hadv := (matchAt_advances _ _ _ _ hmatch).2.2
          simp only [List.length_cons] at hadv
          simp only []
          rw [ih m after (by omega) (by omega)]

theorem execAllParsed_eq (n : Nat) : ∀ s : Text, execAllParsed n s = some (execAll n s) := by
  induction n with
  | zero => intro s; rfl
  | succ n ih =>
    intro s
    cases s with
    | nil => rfl
    | cons c rest =>
      simp only [execAllParsed, execAll]
      cases hmatch : matchAt (c :: rest) with
      | none => exact ih rest
      | some found =>
        obtain ⟨m0, defName, after⟩ := found
        simp only []
        rw [defNameOf_match _ _ _ _ hmatch, ih after]

theorem execAll_nil (n : Nat) : ∀ s : Text, (∀ i, matchAt (s.drop i) = none) →
    execAll n s = [] := by
  induction n with
  | zero => intro s _; rfl
  | succ n ih =>
    intro s h
    cases s with
    | nil => rfl
    | cons c rest =>
      simp only [execAll]
      have h0 : matchAt (c :: rest) = none := h 0
      rw [h0]
      exact ih rest (fun i => h (i + 1))

theorem matchAt_none_of_no_fragment (s : Text)
    (h : ∀ pre key type title post : Text, (∀ c ∈ key, isWordChar c = true) →
      (∀ c ∈ type, isWordChar c = true) → (∀ c ∈ title, isWordChar c = true) →
      s ≠ pre ++ fragment key type title ++ post) :
    ∀ i, matchAt (s.drop i) = none := by
  intro i
  cases hmatch : matchAt (s.drop i) with
  | none => rfl
  | some found =>
    obtain ⟨m, key, rest⟩ := found
    obtain ⟨type, title, hk, ht, hu, hm, hs⟩ := matchAt_sound _ _ _ _ hmatch
    exfalso
    apply h (s.take i) key type title rest hk ht hu
    rw [List.append_assoc, ← hm, ← hs, List.take_append_drop]

theorem no_fragment_of_matchAt_none (s : Text)
    (h : ∀ i, i ≤ s.length → matchAt (s.drop i) = none) :
    ∀ pre key type title post : Text, (∀ c ∈ key, isWordChar c = true) →
      (∀ c ∈ type, isWordChar c = true) → (∀ c ∈ title, isWordChar c = true) →
      s ≠ pre ++ fragment key type title ++ post := by
  intro pre key type title post hk ht hu hs
  have hdrop : s.drop pre.length = fragment key type title ++ post := by
    rw [hs, List.append_assoc, List.drop_left]
  have hle : pre.length ≤ s.length := by
    rw [hs]; simp only [List.length_append]; omega
  have h1 := h pre.length hle
  rw [hdrop, matchAt_complete key type title post hk ht hu] at h1
  cases h1

/-! ## The claims -/

set_option maxRecDepth 100000

/-- C7: with a descriptor list and an allow-list for the verb, `processMethod` returns, and its
`paramGroups` are a stable partition of the retained descriptors by location: a descriptor is in
some group exactly when it is in the list and its location is allowed; each retained descriptor
is in exactly one group; every member of a group has the group's key as location; each group
holds the retained descriptors of its key in input order; the keys are distinct and stand in
first-seen order. -/
theorem processMethod_paramGroups_partition (env : Env) (method : Method) (unwrap : Bool)
    (defs : List Parameter) (allowed : List Loc)
    (hdefs : method.paramDef = some defs)
    (hallowed : env.allowedParams method.methodName = some allowed) :
    ∃ r, processMethod env method unwrap = some r ∧
      (∀ p, (∃ g ∈ r.paramGroups, p ∈ g.2) ↔ (p ∈ defs ∧ p.in_ ∈ allowed)) ∧
      (∀ p, p ∈ defs → p.in_ ∈ allowed → ∃! g, g ∈ r.paramGroups ∧ p ∈ g.2) ∧
      (∀ g ∈ r.paramGroups, ∀ p ∈ g.2, p.in_ = g.1) ∧
      (∀ g ∈ r.paramGroups,
        g.2 = (defs.filter (fun p => allowed.contains p.in_)).filter (fun p => p.in_ = g.1)) ∧
      (r.paramGroups.map Prod.fst).Nodup ∧
      r.paramGroups.map Prod.fst
        = firstSeen ((defs.filter (fun p => allowed.contains p.in_)).map Parameter.in_) := by
  refine ⟨_, processMethod_eq env method unwrap defs allowed hdefs hallowed, ?_⟩
  show (∀ p, (∃ g ∈ groupBy (retained allowed defs), p ∈ g.2) ↔ (p ∈ defs ∧ p.in_ ∈ allowed)) ∧
      (∀ p, p ∈ defs → p.in_ ∈ allowed → ∃! g, g ∈ groupBy (retained allowed defs) ∧ p ∈ g.2) ∧
      (∀ g ∈ groupBy (retained allowed defs), ∀ p ∈ g.2, p.in_ = g.1) ∧
      (∀ g ∈ groupBy (retained allowed defs),
        g.2 = (retained allowed defs).filter (fun p => p.in_ = g.1)) ∧
      ((groupBy (retained allowed defs)).map Prod.fst).Nodup ∧
      (groupBy (retained allowed defs)).map Prod.fst
        = firstSeen ((retained allowed defs).map Parameter.in_)
  have hmemR : ∀ p, p ∈ retained allowed defs ↔ (p ∈ defs ∧ p.in_ ∈ allowed) := by
    intro p
    simp [retained, List.mem_filter]
  have hkeys : (groupBy (retained allowed defs)).map Prod.fst
      = firstSeen ((retained allowed defs).map Parameter.in_) := by
    rw [groupBy_eq, groupsByLocation, List.map_map]
    exact List.map_id _
  have hgroup : ∀ g ∈ groupBy (retained allowed defs),
      g.2 = (retained allowed defs).filter (fun p => p.in_ = g.1) :=
    fun g hg => (groupBy_group _ g hg).2
  have hkey : ∀ g ∈ groupBy (retained allowed defs), ∀ p ∈ g.2, p.in_ = g.1 := by
    intro g hg p hp
    rw [hgroup g hg, List.mem_filter] at hp
    simpa using hp.2
  have hin : ∀ p, p ∈ retained allowed defs →
      (p.in_, (retained allowed defs).filter (fun q => q.in_ = p.in_))
        ∈ groupBy (retained allowed defs) := by
    intro p hp
    rw [groupBy_eq, groupsByLocation, List.mem_map]
    exact ⟨p.in_, (mem_firstSeen _ _).2 (List.mem_map.2 ⟨p, hp, rfl⟩), rfl⟩
  refine ⟨?_, ?_, hkey, hgroup, ?_, hkeys⟩
  · intro p
    rw [← hmemR]
    constructor
    · rintro ⟨g, hg, hp⟩
      rw [hgroup g hg] at hp
      exact (List.mem_filter.1 hp).1
    · intro hp
      exact ⟨_, hin p hp, by simp [List.mem_filter, hp]⟩
  · intro p hp hal
    have hpR : p ∈ retained allowed defs := (hmemR p).2 ⟨hp, hal⟩
    refine ⟨_, ⟨hin p hpR, by simp [List.mem_filter, hpR]⟩, ?_⟩
    rintro g ⟨hg, hpg⟩
    have h1 : p.in_ = g.1 := hkey g hg p hpg
    have h2 := hgroup g hg
    rw [← h1] at h2
    exact Prod.ext h1.symm h2
  · rw [hkeys]
    exact nodup_firstSeen _

/-- A descriptor list and an allow-list on which C7 applies: the groups of `listVisits`. -/
theorem processMethod_paramGroups_partition_witness :
    listVisits.paramDef
        = some [sampleParam "id" .path "number", sampleParam "payload" .body "Pet",
                sampleParam "limit" .query "number", sampleParam "visit" .path "number"] ∧
      sampleEnv.allowedParams listVisits.methodName = some [.path, .query, .header] ∧
      ∃ r, processMethod sampleEnv listVisits true = some r ∧
        r.paramGroups
          = [(.path, [sampleParam "id" .path "number", sampleParam "visit" .path "number"]),
             (.query, [sampleParam "limit" .query "number"])] := by
  refine ⟨rfl, rfl, ?_⟩
  obtain ⟨r, hr, -, -, -, -, -, -⟩ :=
    processMethod_paramGroups_partition sampleEnv listVisits true _ _ rfl rfl
  refine ⟨r, hr, ?_⟩
  have h : (processMethod sampleEnv listVisits true).map MethodCode.paramGroups
      = some [(.path, [sampleParam "id" .path "number", sampleParam "visit" .path "number"]),
              (.query, [sampleParam "limit" .query "number"])] := by decide
  rw [hr] at h
  exact Option.some.inj h

/-- C8: the call arguments start with a body argument exactly for `post`, `put` and `patch`;
that argument is `bodyParamsWithoutUndefined` when a body group exists, else `formDataParams`
when a formData group exists, else `{}`; what follows is the options argument alone. -/
theorem getRequestParams_body_argument (paramTypes : List Loc) (methodName : Text) :
    getRequestParams paramTypes methodName
      = (if methodName = lit "post" ∨ methodName = lit "put" ∨ methodName = lit "patch" then
          lit ", " ++
            (if Loc.body ∈ paramTypes then lit "bodyParamsWithoutUndefined"
             else if Loc.formData ∈ paramTypes then lit "formDataParams"
             else lit "\x7b\x7d")
         else [])
        ++ optionsArgument paramTypes := by
  rw [getRequestParams_eq]
  congr 1
  unfold bodyArgument
  by_cases hm : methodName = lit "post" ∨ methodName = lit "put" ∨ methodName = lit "patch"
  · rw [if_pos hm, if_pos hm]
    by_cases hb : Loc.body ∈ paramTypes
    · rw [if_pos hb, if_pos hb]; rfl
    · rw [if_neg hb, if_neg hb]
      by_cases hf : Loc.formData ∈ paramTypes
      · rw [if_pos hf, if_pos hf]; rfl
      · rw [if_neg hf, if_neg hf]; rfl
  · rw [if_neg hm, if_neg hm]

/-- C9: after the body argument, if any, the call arguments hold one options argument exactly
when a query or a header group exists; it holds `params: queryParams` exactly when a query group
exists and `headers: headerParams` exactly when a header group exists, query first; with neither
group nothing follows the body argument. -/
theorem getRequestParams_options_argument (paramTypes : List Loc) (methodName : Text) :
    getRequestParams paramTypes methodName
      = bodyArgument paramTypes methodName ++
        (if Loc.query ∈ paramTypes ∨ Loc.header ∈ paramTypes then
          lit ", \x7b"
            ++ (if Loc.query ∈ paramTypes then lit "params: queryParams" else [])
            ++ (if Loc.query ∈ paramTypes ∧ Loc.header ∈ paramTypes then lit ", " else [])
            ++ (if Loc.header ∈ paramTypes then lit "headers: headerParams" else [])
            ++ lit "\x7d"
         else []) := by
  rw [getRequestParams_eq]
  congr 1
  unfold optionsArgument
  by_cases hq : Loc.query ∈ paramTypes <;> by_cases hh : Loc.header ∈ paramTypes <;>
    simp only [hq, hh, if_true, if_false, or_self, or_true, true_or, and_self, and_true,
      true_and, and_false, false_and] <;> rfl

/-- C3 (as stated, refuted): the URL template `/pets/{id}` is rewritten to
`/pets/${pathParams.id}`; the interpolation refers to `pathParams.id`, and the text `params.id`
does not occur in the rewritten URL. -/
theorem urlReplace_pets_id_counterexample :
    urlReplace (lit "/pets/\x7bid\x7d") = lit "/pets/$\x7bpathParams.id\x7d" ∧
      urlReplace (lit "/pets/\x7bid\x7d") ≠ lit "/pets/$\x7bparams.id\x7d" ∧
      ¬ (lit "params.id" <:+: urlReplace (lit "/pets/\x7bid\x7d")) := by
  decide

/-- C3 (amended): for a URL template made of brace-free text and placeholders `{name}`, the
rewritten URL replaces every placeholder by `${pathParams.name}` and keeps the text between
placeholders; `processMethod` returns, and its return statement applies the HTTP client to the
template string made of `basePath` followed by the rewritten URL. -/
theorem processMethod_url_placeholders (env : Env) (method : Method) (unwrap : Bool)
    (allowed : List Loc) (parts : List UrlPart)
    (hallowed : env.allowedParams method.methodName = some allowed)
    (hurl : method.url = (parts.map UrlPart.source).flatten)
    (hwf : ∀ p ∈ parts, p.WellFormed) :
    urlReplace method.url = (parts.map UrlPart.rewritten).flatten ∧
      ∃ r before after params, processMethod env method unwrap = some r ∧
        r.methodDef = before
          ++ env.indent (.text (lit "return this.http." ++ method.methodName ++ lit "<"
              ++ method.responseDef.type ++ lit ">" ++ lit "(\x60" ++ method.basePath
              ++ (parts.map UrlPart.rewritten).flatten ++ lit "\x60" ++ params ++ lit ");"))
          ++ after := by
  have hrew : urlReplace method.url = (parts.map UrlPart.rewritten).flatten := by
    rw [hurl]
    exact urlReplace_parts parts hwf
  refine ⟨hrew, ?_⟩
  obtain ⟨part, hpart⟩ := processParamDef_total env method unwrap allowed hallowed
  refine ⟨_, lit "\n"
      ++ env.makeComment (filterBoolean [method.summary, method.description, method.swaggerUrl])
      ++ (method.simpleName ++ lit "(" ++ part.paramsSignature ++ lit "): Observable<"
          ++ method.responseDef.type ++ lit "> \x7b\n")
      ++ env.indent (.lines part.paramSeparation)
      ++ (if part.paramSeparation.length ≠ 0 then lit "\n" else []),
    lit "\n" ++ lit "\x7d" ++ part.splitParamsMethod,
    getRequestParams part.paramTypes method.methodName,
    processMethod_of_part env method unwrap part hpart, ?_⟩
  simp only [composeMethodDef, returnStatement, hrew, List.append_assoc]

/-- A method on which C3 (amended) applies: `getPetPathOnly` with the URL `/pets/{id}`. -/
theorem processMethod_url_placeholders_witness :
    sampleEnv.allowedParams getPetPathOnly.methodName = some [.path, .query, .header] ∧
      getPetPathOnly.url = (petUrlParts.map UrlPart.source).flatten ∧
      (∀ p ∈ petUrlParts, p.WellFormed) ∧
      urlReplace getPetPathOnly.url = lit "/pets/$\x7bpathParams.id\x7d" := by
  have hwf : ∀ p ∈ petUrlParts, p.WellFormed := by
    intro p hp
    rcases List.mem_cons.1 hp with rfl | hp
    · show '{' ∉ lit "/pets/"
      decide
    · rcases List.mem_cons.1 hp with rfl | hp
      · exact ⟨by decide, by decide⟩
      · cases hp
  refine ⟨rfl, rfl, hwf, ?_⟩
  rw [(processMethod_url_placeholders sampleEnv getPetPathOnly false _ petUrlParts rfl rfl hwf).1]
  rfl

/-- C4 (as stated, refuted): for the single path parameter `id` the statement blocks are not
empty; the only block is the declaration of `pathParams`. -/
theorem getParamSeparation_path_counterexample :
    getParamSeparation sampleEnv (groupBy [sampleParam "id" .path "number"])
      = some [lit "const pathParams = \x7b\n  id: params.id,\n\x7d;"] ∧
    (processMethod sampleEnv getPetPathOnly false).map MethodCode.methodDef
      = some (lit ("\ngetPet(params: GetPetParams): Observable<Pet> \x7b\n"
          ++ "  const pathParams = \x7b\n    id: params.id,\n  \x7d;\n"
          ++ "  return this.http.get<Pet>(\x60/api/pets/$\x7bpathParams.id\x7d\x60);\n\x7d")) := by
  decide

/-- C4 (amended): with a descriptor list and an allow-list for the verb, `processMethod`
returns; `getParamSeparation` yields exactly one statement block for each surviving group, in
group order, the path group included; the blocks are indented into the method text; and the
block of the path group is the declaration `const pathParams = {...};` built with
`setObjectProps` from the names of the group. -/
theorem processMethod_path_block (env : Env) (method : Method) (unwrap : Bool)
    (defs : List Parameter) (allowed : List Loc)
    (hdefs : method.paramDef = some defs)
    (hallowed : env.allowedParams method.methodName = some allowed) :
    ∃ r blocks before after, processMethod env method unwrap = some r ∧
      getParamSeparation env r.paramGroups = some blocks ∧
      r.methodDef = before ++ env.indent (.lines blocks) ++ after ∧
      List.Forall₂
        (fun g b => paramSeparationBlock env g.1 g.2 = some b ∧
          (g.1 = Loc.path →
            b = lit "const pathParams = \x7b\n"
              ++ env.indent (.lines (g.2.map (fun p => setObjectProps env p.name)))
              ++ lit "\n\x7d;"))
        r.paramGroups blocks := by
  refine ⟨_, separationBlocks env (groupBy (retained allowed defs)),
    lit "\n"
      ++ env.makeComment (filterBoolean [method.summary, method.description, method.swaggerUrl])
      ++ (method.simpleName ++ lit "("
          ++ (compiledPart env method unwrap (retained allowed defs)).paramsSignature
          ++ lit "): Observable<" ++ method.responseDef.type ++ lit "> \x7b\n"),
    (if (separationBlocks env (groupBy (retained allowed defs))).length ≠ 0 then lit "\n" else [])
      ++ env.indent (.text (returnStatement method (urlReplace method.url)
          (getRequestParams ((groupBy (retained allowed defs)).map Prod.fst) method.methodName)))
      ++ lit "\n" ++ lit "\x7d"
      ++ (compiledPart env method unwrap (retained allowed defs)).splitParamsMethod,
    processMethod_eq env method unwrap defs allowed hdefs hallowed,
    getParamSeparation_groupBy env _, ?_, ?_⟩
  · simp only [composeMethodDef, compiledPart, List.append_assoc]
  · refine List.Forall₂.imp ?_
      (forall₂_separationBlocks env _ (fun g hg => groupBy_nonempty _ g hg))
    intro g b hb
    refine ⟨hb, fun hp => ?_⟩
    rw [hp, paramSeparationBlock_path] at hb
    exact (Option.some.inj hb).symm

/-- A method on which C4 (amended) applies: `getPetPathOnly`, whose only group is `path`. -/
theorem processMethod_path_block_witness :
    getPetPathOnly.paramDef = some [sampleParam "id" .path "number"] ∧
      sampleEnv.allowedParams getPetPathOnly.methodName = some [.path, .query, .header] ∧
      ∃ r blocks before after, processMethod sampleEnv getPetPathOnly false = some r ∧
        getParamSeparation sampleEnv r.paramGroups = some blocks ∧
        r.methodDef = before ++ sampleEnv.indent (.lines blocks) ++ after ∧
        List.Forall₂
          (fun g b => paramSeparationBlock sampleEnv g.1 g.2 = some b ∧
            (g.1 = Loc.path →
              b = lit "const pathParams = \x7b\n"
                ++ sampleEnv.indent (.lines (g.2.map (fun p => setObjectProps sampleEnv p.name)))
                ++ lit "\n\x7d;"))
          r.paramGroups blocks :=
  ⟨rfl, rfl, processMethod_path_block sampleEnv getPetPathOnly false _ _ rfl rfl⟩

/-- C1 (the code at the failing input): `getPetWithBody` lists a `body` parameter that the
table does not allow for `get`. The parameter is dropped from the groups and from the canonical
method, yet the unwrapped overload re-wraps `{id, payload}`; for the descriptor without the
disallowed parameter the overload re-wraps `{id}`, so the two method texts differ. -/
theorem processMethod_overload_keeps_dropped_parameter :
    sampleEnv.allowedParams (lit "get") = some [.path, .query, .header] ∧
    (processMethod sampleEnv getPetWithBody true).map MethodCode.methodDef
      = some (lit ("\ngetPet(params: GetPetParams): Observable<Pet> \x7b\n"
          ++ "  const pathParams = \x7b\n    id: params.id,\n  \x7d;\n"
          ++ "  return this.http.get<Pet>(\x60/api/pets/$\x7bpathParams.id\x7d\x60);\n\x7d"
          ++ "\ngetPet_(id: number): Observable<Pet> \x7b\n"
          ++ "  return this.getPet(\x7bid, payload\x7d);\n\x7d\n")) ∧
    (processMethod sampleEnv getPetPathOnly true).map MethodCode.methodDef
      = some (lit ("\ngetPet(params: GetPetParams): Observable<Pet> \x7b\n"
          ++ "  const pathParams = \x7b\n    id: params.id,\n  \x7d;\n"
          ++ "  return this.http.get<Pet>(\x60/api/pets/$\x7bpathParams.id\x7d\x60);\n\x7d"
          ++ "\ngetPet_(id: number): Observable<Pet> \x7b\n"
          ++ "  return this.getPet(\x7bid\x7d);\n\x7d\n")) ∧
    (processMethod sampleEnv getPetWithBody true).map MethodCode.methodDef
      ≠ (processMethod sampleEnv getPetPathOnly true).map MethodCode.methodDef := by
  decide

/-- C2 (as stated, refuted): for the `post` method `addPetWithSchema`, whose body parameter
carries a schema reference, the body argument of the call is `bodyParamsWithoutUndefined`, the
filtered copy, and not `params.payload`. -/
theorem processMethod_schema_body_counterexample :
    (processMethod sampleEnv addPetWithSchema false).map MethodCode.methodDef
      = some (lit ("\naddPet(params: AddPetParams): Observable<Pet> \x7b\n"
          ++ "  const bodyParams = params.payload;\n"
          ++ "  const bodyParamsWithoutUndefined: any = \x7b\x7d;\n"
          ++ "  Object.entries(bodyParams || \x7b\x7d).forEach(([key, value]) => \x7b\n"
          ++ "    if (value !== undefined) bodyParamsWithoutUndefined[key] = value;\n"
          ++ "  \x7d);\n"
          ++ "  return this.http.post<Pet>(\x60/api/pets\x60, bodyParamsWithoutUndefined);\n\x7d")) ∧
    getRequestParams [Loc.body] (lit "post") = lit ", bodyParamsWithoutUndefined" ∧
    getRequestParams [Loc.body] (lit "post") ≠ lit ", params.payload" := by
  decide

/-- C2 (amended): for a `post`, `put` or `patch` method whose first retained body parameter
carries a schema reference, `processMethod` returns; the body block assigns
`const bodyParams = params.<name>;` without an object literal and then derives
`bodyParamsWithoutUndefined` from it; and the call arguments start with
`bodyParamsWithoutUndefined`, followed by the options argument. -/
theorem processMethod_schema_body (env : Env) (method : Method) (unwrap : Bool)
    (defs : List Parameter) (allowed : List Loc) (first : Parameter) (others : List Parameter)
    (hverb : method.methodName = lit "post" ∨ method.methodName = lit "put"
      ∨ method.methodName = lit "patch")
    (hdefs : method.paramDef = some defs)
    (hallowed : env.allowedParams method.methodName = some allowed)
    (hbody : (retained allowed defs).filter (fun p => p.in_ = Loc.body) = first :: others)
    (hschema : first.schema.isSome) :
    ∃ r part, processMethod env method unwrap = some r ∧
      r.methodDef = composeMethodDef env method part (urlReplace method.url)
        (lit ", bodyParamsWithoutUndefined" ++ optionsArgument part.paramTypes) ∧
      (lit "const bodyParams = params." ++ first.name ++ lit ";\n"
          ++ lit "const bodyParamsWithoutUndefined: any = \x7b\x7d;\n"
          ++ lit "Object.entries(bodyParams || \x7b\x7d).forEach(([key, value]) => \x7b\n"
          ++ lit "  if (value !== undefined) bodyParamsWithoutUndefined[key] = value;\n"
          ++ lit "\x7d);") ∈ part.paramSeparation := by
  have hfirst : first ∈ retained allowed defs ∧ first.in_ = Loc.body := by
    have : first ∈ (retained allowed defs).filter (fun p => p.in_ = Loc.body) := by
      rw [hbody]; exact List.mem_cons_self _ _
    rw [List.mem_filter] at this
    exact ⟨this.1, by simpa using this.2⟩
  have hgroup : (Loc.body, first :: others) ∈ groupBy (retained allowed defs) := by
    rw [groupBy_eq, groupsByLocation, List.mem_map]
    refine ⟨Loc.body, (mem_firstSeen _ _).2 (List.mem_map.2 ⟨first, hfirst.1, hfirst.2⟩), ?_⟩
    rw [hbody]
  have hkey : Loc.body ∈ (groupBy (retained allowed defs)).map Prod.fst :=
    List.mem_map.2 ⟨_, hgroup, rfl⟩
  refine ⟨_, compiledPart env method unwrap (retained allowed defs),
    processMethod_eq env method unwrap defs allowed hdefs hallowed, ?_, ?_⟩
  · show composeMethodDef env method _ _
        (getRequestParams ((groupBy (retained allowed defs)).map Prod.fst) method.methodName) = _
    rw [getRequestParams_eq, bodyArgument, if_pos hverb, if_pos hkey]
    rfl
  · show _ ∈ separationBlocks env (groupBy (retained allowed defs))
    unfold separationBlocks
    refine List.mem_map.2 ⟨_, hgroup, ?_⟩
    rw [paramSeparationBlock_body_schema env first others hschema]
    rfl

/-- A method on which C2 (amended) applies: `addPetWithSchema`. -/
theorem processMethod_schema_body_witness :
    (addPetWithSchema.methodName = lit "post" ∨ addPetWithSchema.methodName = lit "put"
        ∨ addPetWithSchema.methodName = lit "patch") ∧
      sampleEnv.allowedParams addPetWithSchema.methodName
        = some [.path, .body, .query, .formData, .header] ∧
      ∃ r part, processMethod sampleEnv addPetWithSchema false = some r ∧
        r.methodDef = composeMethodDef sampleEnv addPetWithSchema part
          (urlReplace addPetWithSchema.url)
          (lit ", bodyParamsWithoutUndefined" ++ optionsArgument part.paramTypes) ∧
        (lit "const bodyParams = params." ++ lit "payload" ++ lit ";\n"
            ++ lit "const bodyParamsWithoutUndefined: any = \x7b\x7d;\n"
            ++ lit "Object.entries(bodyParams || \x7b\x7d).forEach(([key, value]) => \x7b\n"
            ++ lit "  if (value !== undefined) bodyParamsWithoutUndefined[key] = value;\n"
            ++ lit "\x7d);") ∈ part.paramSeparation :=
  ⟨Or.inl rfl, rfl,
    processMethod_schema_body sampleEnv addPetWithSchema false _ _
      { sampleParam "payload" .body "Pet" with schema := some (lit "#/definitions/Pet") } []
      (Or.inl rfl) rfl rfl rfl rfl⟩

/-- C5 (the code at the failing input): in `schemaTwoRefs` the placeholder `fooDef` is referenced
twice. The definition is removed, the first reference becomes `"type":"object"`, and the second
reference to `#/definitions/fooDef` is still in the normalized text. -/
theorem removeEmptyObjects_keeps_second_reference :
    removeEmptyObjectsFromJSONScheme schemaTwoRefs
      = lit ("\x7b\"definitions\":\x7b\"A\":\x7b\"properties\":\x7b"
          ++ "\"p\":\x7b\"type\":\"object\"\x7d,"
          ++ "\"q\":\x7b\"$ref\":\"#/definitions/fooDef\"\x7d\x7d\x7d\x7d\x7d") ∧
    defRef (lit "fooDef") <:+: removeEmptyObjectsFromJSONScheme schemaTwoRefs := by
  decide

/-- C6 (the code at the failing input): in `schemaTwoFragments` the same placeholder fragment is
the first key of two objects. The first occurrence goes with its trailing comma, the second one
goes alone, and the comma it leaves behind makes the object `{,"y":2}`. -/
theorem removeEmptyObjects_leaves_dangling_comma :
    removeEmptyObjectsFromJSONScheme schemaTwoFragments
      = lit "\x7b\"A\":\x7b\"x\":1\x7d,\"B\":\x7b,\"y\":2\x7d\x7d" := by
  decide

/-- C10 (the code at the failing input): the name `x-api-key` is not a valid property name. The
header block quotes it, and the re-wrapping literal of the unwrapped overload holds it bare, as
`{x-api-key}`. -/
theorem processMethod_overload_bare_key :
    sampleEnv.isValidPropertyName (lit "x-api-key") = false ∧
    getPropertyAssignments [sampleParam "x-api-key" .header "string"] = lit "\x7bx-api-key\x7d" ∧
    (processMethod sampleEnv getWithApiKey true).map MethodCode.methodDef
      = some (lit ("\nlistPets(params: ListPetsParams): Observable<Pet> \x7b\n"
          ++ "  const headerParams = new HttpHeaders(\x7b\n"
          ++ "    \x27x-api-key\x27: params[\x27x-api-key\x27],\n  \x7d);\n"
          ++ "  return this.http.get<Pet>(\x60/api/pets\x60, \x7bheaders: headerParams\x7d);\n\x7d"
          ++ "\nlistPets_(x-api-key: string): Observable<Pet> \x7b\n"
          ++ "  return this.listPets(\x7bx-api-key\x7d);\n\x7d\n")) := by
  decide

/-- C11: `setObjectProps` emits `name: params.name,` for a valid property name and
`'name': params['name'],` for any other name; it never emits one of the two mixed forms. On the
sample predicate, `limit` stays bare and `x-api-key` is quoted on both sides. -/
theorem setObjectProps_forms (env : Env) (key : Text) :
    (env.isValidPropertyName key = true →
      setObjectProps env key = key ++ lit ": params." ++ key ++ lit ",") ∧
    (env.isValidPropertyName key = false →
      setObjectProps env key
        = lit "\x27" ++ key ++ lit "\x27: params[\x27" ++ key ++ lit "\x27],") ∧
    setObjectProps env key ≠ key ++ lit ": params[\x27" ++ key ++ lit "\x27]," ∧
    setObjectProps env key ≠ lit "\x27" ++ key ++ lit "\x27: params." ++ key ++ lit "," ∧
    setObjectProps sampleEnv (lit "limit") = lit "limit: params.limit," ∧
    setObjectProps sampleEnv (lit "x-api-key")
      = lit "\x27x-api-key\x27: params[\x27x-api-key\x27]," := by
  have hlen : (setObjectProps env key).length = 2 * key.length + 10
      ∨ (setObjectProps env key).length = 2 * key.length + 15 := by
    unfold setObjectProps
    cases env.isValidPropertyName key
    · right
      simp only [Bool.false_eq_true, if_false, List.length_append]
      have h1 : (lit "\x27").length = 1 := rfl
      have h2 : (lit "\x27: params[\x27").length = 11 := rfl
      have h3 : (lit "\x27],").length = 3 := rfl
      omega
    · left
      simp only [if_true, List.length_append]
      have h1 : (lit ": params.").length = 9 := rfl
      have h2 : (lit ",").length = 1 := rfl
      omega
  refine ⟨fun h => by simp [setObjectProps, h], fun h => by simp [setObjectProps, h], ?_, ?_,
    by decide, by decide⟩
  · intro h
    have h' := congrArg List.length h
    simp only [List.length_append] at h'
    have h1 : (lit ": params[\x27").length = 10 := rfl
    have h2 : (lit "\x27],").length = 3 := rfl
    omega
  · intro h
    have h' := congrArg List.length h
    simp only [List.length_append] at h'
    have h1 : (lit "\x27").length = 1 := rfl
    have h2 : (lit "\x27: params.").length = 10 := rfl
    have h3 : (lit ",").length = 1 := rfl
    omega

/-- C12 (as stated, refuted): for `getPetStatus` the parameter type text and the enum
declaration are joined by one line break and a line break follows the enum, which is not
`<paramType>\n\n<enumDeclaration>`; for `getStatusNoParams`, whose parameter type text is empty,
the interface text is the enum declaration followed by a line break, not the enum alone. -/
theorem processMethod_interfaceDef_counterexample :
    (processMethod sampleEnv getPetStatus false).map MethodCode.interfaceDef
      = some (lit "export interface GetPetParams \x7bid: number\x7d\n"
          ++ lit "\n" ++ lit "export enum Status \x7bA\x7d" ++ lit "\n") ∧
    (processMethod sampleEnv getPetStatus false).map MethodCode.interfaceDef
      ≠ some (lit "export interface GetPetParams \x7bid: number\x7d\n"
          ++ lit "\n\n" ++ lit "export enum Status \x7bA\x7d") ∧
    (processMethod sampleEnv getStatusNoParams false).map MethodCode.interfaceDef
      = some (lit "export enum Status \x7bA\x7d" ++ lit "\n") ∧
    (processMethod sampleEnv getStatusNoParams false).map MethodCode.interfaceDef
      ≠ some (lit "export enum Status \x7bA\x7d") := by
  decide

/-- C12 (amended): for a verb with an allow-list `processMethod` returns, and its `interfaceDef`
is the parameter type text when the response carries no enum declaration or an empty one; the
enum declaration followed by a line break when the parameter type text is empty; and otherwise
the parameter type text, one line break, the enum declaration and one more line break. The
parameter type text is empty when `paramDef` is absent or the interface is empty. -/
theorem processMethod_interfaceDef (env : Env) (method : Method) (unwrap : Bool)
    (allowed : List Loc)
    (hallowed : env.allowedParams method.methodName = some allowed) :
    ∃ r, processMethod env method unwrap = some r ∧
      r.interfaceDef =
        (match method.responseDef.enumDeclaration with
          | none => paramTypeText env allowed method
          | some enumDeclaration =>
            if enumDeclaration = [] then paramTypeText env allowed method
            else if paramTypeText env allowed method = [] then enumDeclaration ++ lit "\n"
            else paramTypeText env allowed method ++ lit "\n" ++ enumDeclaration ++ lit "\n") ∧
      (method.paramDef = none → paramTypeText env allowed method = []) ∧
      ((processedSurvivors env allowed method).isInterfaceEmpty = true →
        paramTypeText env allowed method = []) := by
  refine ⟨_, processMethod_methodPart env method unwrap allowed hallowed, ?_, ?_, ?_⟩
  · show composeInterfaceDef method (methodPart env method unwrap allowed).interfaceDef = _
    rw [methodPart_interfaceDef]
    unfold composeInterfaceDef
    cases method.responseDef.enumDeclaration with
    | none => rfl
    | some e =>
      by_cases he : e = []
      · simp [he]
      · by_cases ht : paramTypeText env allowed method = []
        · simp [he, ht]
        · simp [he, ht]
  · intro h
    simp [paramTypeText, h]
  · intro h
    unfold paramTypeText
    cases method.paramDef <;> simp [h]

/-- A method on which C12 (amended) applies: `getPetStatus`. -/
theorem processMethod_interfaceDef_witness :
    sampleEnv.allowedParams getPetStatus.methodName = some [.path, .query, .header] ∧
      ∃ r, processMethod sampleEnv getPetStatus false = some r ∧
        r.interfaceDef = lit "export interface GetPetParams \x7bid: number\x7d\n"
          ++ lit "\n" ++ lit "export enum Status \x7bA\x7d" ++ lit "\n" := by
  refine ⟨rfl, ?_⟩
  obtain ⟨r, hr, -, -, -⟩ := processMethod_interfaceDef sampleEnv getPetStatus false _ rfl
  refine ⟨r, hr, ?_⟩
  have h : (processMethod sampleEnv getPetStatus false).map MethodCode.interfaceDef
      = some (lit "export interface GetPetParams \x7bid: number\x7d\n"
          ++ lit "\n" ++ lit "export enum Status \x7bA\x7d" ++ lit "\n") := by decide
  rw [hr] at h
  exact Option.some.inj h

/-- C13: for a verb with an allow-list `processMethod` returns with either value of the flag;
with the flag off the method text ends with the closing brace of the canonical method; and the
method text with the flag is the text without it followed by the emitted overload, which is the
method `<simpleName>_` exactly when the flag is on, exactly one descriptor survived the filter
and the scalar declarations are not empty, and is empty in every other case, an absent
`paramDef` included. -/
theorem processMethod_overload_gate (env : Env) (method : Method) (unwrap : Bool)
    (allowed : List Loc)
    (hallowed : env.allowedParams method.methodName = some allowed) :
    ∃ r r0 body, processMethod env method unwrap = some r ∧
      processMethod env method false = some r0 ∧
      r0.methodDef = body ++ lit "\n" ++ lit "\x7d" ∧
      r.methodDef = r0.methodDef ++
        (match method.paramDef with
          | none => []
          | some defs =>
            if unwrap = true ∧ (retained allowed defs).length = 1
                ∧ (env.processParams (retained allowed defs)
                    (upperFirst env (method.simpleName ++ lit "Params"))).typesOnly ≠ [] then
              lit "\n" ++ method.simpleName ++ lit "_("
                ++ (env.processParams (retained allowed defs)
                    (upperFirst env (method.simpleName ++ lit "Params"))).typesOnly
                ++ lit "): Observable<" ++ method.responseDef.type ++ lit "> \x7b\n"
                ++ env.indent (.text (lit "return this." ++ method.simpleName ++ lit "("
                    ++ lit "\x7b" ++ join (lit ", ") (defs.map (fun p => p.name)) ++ lit "\x7d"
                    ++ lit ");\n"))
                ++ lit "\x7d\n"
            else []) := by
  have hover : (match method.paramDef with
          | none => []
          | some defs =>
            if unwrap = true ∧ (retained allowed defs).length = 1
                ∧ (env.processParams (retained allowed defs)
                    (upperFirst env (method.simpleName ++ lit "Params"))).typesOnly ≠ [] then
              lit "\n" ++ method.simpleName ++ lit "_("
                ++ (env.processParams (retained allowed defs)
                    (upperFirst env (method.simpleName ++ lit "Params"))).typesOnly
                ++ lit "): Observable<" ++ method.responseDef.type ++ lit "> \x7b\n"
                ++ env.indent (.text (lit "return this." ++ method.simpleName ++ lit "("
                    ++ lit "\x7b" ++ join (lit ", ") (defs.map (fun p => p.name)) ++ lit "\x7d"
                    ++ lit ");\n"))
                ++ lit "\x7d\n"
            else []) = emittedOverload env method unwrap allowed := by
    unfold emittedOverload unwrappedOverload processedSurvivors survivors
    cases h : method.paramDef <;> rfl
  rw [hover]
  refine ⟨_, _,
    lit "\n" ++ env.makeComment (documentationLines method)
      ++ (method.simpleName ++ lit "(" ++ (methodPart env method false allowed).paramsSignature
          ++ lit "): Observable<" ++ method.responseDef.type ++ lit "> \x7b\n")
      ++ env.indent (.lines (methodPart env method false allowed).paramSeparation)
      ++ (if (methodPart env method false allowed).paramSeparation = [] then [] else lit "\n")
      ++ env.indent (.text (lit "return this.http." ++ method.methodName ++ lit "<"
          ++ method.responseDef.type ++ lit ">" ++ lit "(\x60" ++ method.basePath
          ++ urlReplace method.url ++ lit "\x60"
          ++ getRequestParams (methodPart env method false allowed).paramTypes method.methodName
          ++ lit ");")),
    processMethod_methodPart env method unwrap allowed hallowed,
    processMethod_methodPart env method false allowed hallowed, ?_, ?_⟩
  · show composeMethodDef env method _ _ _ = _
    rw [composeMethodDef_eq, methodPart_splitParamsMethod, emittedOverload_off,
      List.append_nil]
  · show composeMethodDef env method _ _ _ = composeMethodDef env method _ _ _ ++ _
    rw [composeMethodDef_eq, composeMethodDef_eq, methodPart_splitParamsMethod,
      methodPart_splitParamsMethod, emittedOverload_off, List.append_nil,
      methodPart_paramsSignature, methodPart_paramsSignature, methodPart_paramSeparation,
      methodPart_paramSeparation, methodPart_paramTypes, methodPart_paramTypes]

/-- A method on which C13 applies: `getPetPathOnly` with the flag on emits the overload
`getPet_` after the canonical method. -/
theorem processMethod_overload_gate_witness :
    sampleEnv.allowedParams getPetPathOnly.methodName = some [.path, .query, .header] ∧
      ∃ r r0, processMethod sampleEnv getPetPathOnly true = some r ∧
        processMethod sampleEnv getPetPathOnly false = some r0 ∧
        r.methodDef = r0.methodDef
          ++ lit ("\ngetPet_(id: number): Observable<Pet> \x7b\n"
            ++ "  return this.getPet(\x7bid\x7d);\n\x7d\n") := by
  refine ⟨rfl, ?_⟩
  obtain ⟨r, r0, -, hr, hr0, -, -⟩ :=
    processMethod_overload_gate sampleEnv getPetPathOnly true _ rfl
  refine ⟨r, r0, hr, hr0, ?_⟩
  have h : (processMethod sampleEnv getPetPathOnly true).map MethodCode.methodDef
      = (processMethod sampleEnv getPetPathOnly false).map
          (fun c => c.methodDef ++ lit ("\ngetPet_(id: number): Observable<Pet> \x7b\n"
            ++ "  return this.getPet(\x7bid\x7d);\n\x7d\n")) := by decide
  rw [hr, hr0] at h
  exact Option.some.inj h

/-- C14: let the verb have an allow-list, let the parameter compiler report an empty interface
exactly for an empty descriptor list, and let `P` be its own upper case. Then `processMethod`
returns; after the documentation block its method text continues with `<simpleName>()` when no
descriptor survives (an absent `paramDef` included) and with `<simpleName>(params: <Type>)`
otherwise, where `<Type>` is the simple name with its first character upper-cased followed by
`Params`; and when no descriptor survives the interface text holds no parameter type text, only
what the enum declaration contributes. -/
theorem processMethod_signature (env : Env) (method : Method) (unwrap : Bool)
    (allowed : List Loc)
    (hallowed : env.allowedParams method.methodName = some allowed)
    (hcompiler : ∀ ps ty, (env.processParams ps ty).isInterfaceEmpty = true ↔ ps = [])
    (hupper : env.toUpperCase 'P' = ['P']) :
    ∃ r rest, processMethod env method unwrap = some r ∧
      r.methodDef = lit "\n" ++ env.makeComment (documentationLines method)
        ++ (method.simpleName ++ lit "("
            ++ (if survivors allowed method = [] then []
                else lit "params: " ++ (upperFirst env method.simpleName ++ lit "Params"))
            ++ lit "): Observable<" ++ method.responseDef.type ++ lit "> \x7b\n")
        ++ rest ∧
      (survivors allowed method = [] →
        paramTypeText env allowed method = [] ∧
        r.interfaceDef =
          (match method.responseDef.enumDeclaration with
            | none => []
            | some enumDeclaration =>
              if enumDeclaration = [] then [] else enumDeclaration ++ lit "\n")) := by
  have hsig : (methodPart env method unwrap allowed).paramsSignature
      = (if survivors allowed method = [] then []
          else lit "params: " ++ (upperFirst env method.simpleName ++ lit "Params")) := by
    rw [methodPart_paramsSignature]
    cases hdefs : method.paramDef with
    | none => simp [survivors, hdefs]
    | some defs =>
      by_cases hs : survivors allowed method = []
      · have he : (processedSurvivors env allowed method).isInterfaceEmpty = true :=
          (hcompiler _ _).2 hs
        simp [hs, he]
      · have he : (processedSurvivors env allowed method).isInterfaceEmpty = false := by
          cases h : (processedSurvivors env allowed method).isInterfaceEmpty with
          | false => rfl
          | true => exact absurd ((hcompiler _ _).1 h) hs
        simp [hs, he, upperFirst_params env _ hupper]
  have htext : survivors allowed method = [] → paramTypeText env allowed method = [] := by
    intro hs
    unfold paramTypeText
    cases hdefs : method.paramDef with
    | none => rfl
    | some defs =>
      have he : (processedSurvivors env allowed method).isInterfaceEmpty = true :=
        (hcompiler _ _).2 hs
      simp [he]
  refine ⟨_,
    env.indent (.lines (methodPart env method unwrap allowed).paramSeparation)
      ++ (if (methodPart env method unwrap allowed).paramSeparation = [] then [] else lit "\n")
      ++ env.indent (.text (lit "return this.http." ++ method.methodName ++ lit "<"
          ++ method.responseDef.type ++ lit ">" ++ lit "(\x60" ++ method.basePath
          ++ urlReplace method.url ++ lit "\x60"
          ++ getRequestParams (methodPart env method unwrap allowed).paramTypes
              method.methodName
          ++ lit ");"))
      ++ lit "\n" ++ lit "\x7d" ++ (methodPart env method unwrap allowed).splitParamsMethod,
    processMethod_methodPart env method unwrap allowed hallowed, ?_, ?_⟩
  · show composeMethodDef env method _ _ _ = _
    rw [composeMethodDef_eq, hsig]
    simp only [List.append_assoc]
  · intro hs
    refine ⟨htext hs, ?_⟩
    show composeInterfaceDef method (methodPart env method unwrap allowed).interfaceDef = _
    rw [methodPart_interfaceDef, htext hs]
    unfold composeInterfaceDef
    cases method.responseDef.enumDeclaration with
    | none => rfl
    | some e =>
      by_cases he : e = []
      · simp [he]
      · simp [he]

/-- A method on which C14 applies: `getPetPathOnly` on the sample environment, with the
signature `getPet(params: GetPetParams)`. -/
theorem processMethod_signature_witness :
    sampleEnv.allowedParams getPetPathOnly.methodName = some [.path, .query, .header] ∧
      (∀ ps ty, (sampleEnv.processParams ps ty).isInterfaceEmpty = true ↔ ps = []) ∧
      sampleEnv.toUpperCase 'P' = ['P'] ∧
      ∃ r rest, processMethod sampleEnv getPetPathOnly false = some r ∧
        r.methodDef = lit "\n" ++ lit "getPet(params: GetPetParams): Observable<Pet> \x7b\n"
          ++ rest := by
  have hc : ∀ ps ty, (sampleEnv.processParams ps ty).isInterfaceEmpty = true ↔ ps = [] := by
    intro ps ty
    show ps.isEmpty = true ↔ ps = []
    exact List.isEmpty_iff
  refine ⟨rfl, hc, rfl, ?_⟩
  obtain ⟨r, rest, hr, hdef, -⟩ :=
    processMethod_signature sampleEnv getPetPathOnly false _ rfl hc rfl
  refine ⟨r, rest, hr, ?_⟩
  rw [hdef]
  rfl

/-- C17: for a verb with an allow-list `processMethod` returns a bundle, whatever the descriptor
list; every group of the bundle is non-empty, a body group has a first descriptor, every group
has a statement block, and the bundle carries the response definition and the names of the
method. -/
theorem processMethod_returns (env : Env) (method : Method) (unwrap : Bool)
    (allowed : List Loc)
    (hallowed : env.allowedParams method.methodName = some allowed) :
    ∃ r, processMethod env method unwrap = some r ∧
      (∀ g ∈ r.paramGroups, g.2 ≠ []) ∧
      (∀ g ∈ r.paramGroups, g.1 = Loc.body → ∃ first others, g.2 = first :: others) ∧
      (∀ g ∈ r.paramGroups, (paramSeparationBlock env g.1 g.2).isSome = true) ∧
      (getParamSeparation env r.paramGroups).isSome = true ∧
      r.responseDef = method.responseDef ∧
      r.simpleName = method.simpleName ∧
      r.methodName = method.methodName := by
  refine ⟨_, processMethod_methodPart env method unwrap allowed hallowed, ?_, ?_, ?_, ?_,
    rfl, rfl, rfl⟩
  · intro g hg
    have hg2 : g ∈ groupBy (survivors allowed method) := by
      rw [← methodPart_paramGroups env method unwrap allowed]; exact hg
    exact groupBy_nonempty _ g hg2
  · intro g hg _
    have hg2 : g ∈ groupBy (survivors allowed method) := by
      rw [← methodPart_paramGroups env method unwrap allowed]; exact hg
    have hne := groupBy_nonempty _ g hg2
    cases hgs : g.2 with
    | nil => exact absurd hgs hne
    | cons first others => exact ⟨first, others, rfl⟩
  · intro g hg
    have hg2 : g ∈ groupBy (survivors allowed method) := by
      rw [← methodPart_paramGroups env method unwrap allowed]; exact hg
    exact paramSeparationBlock_isSome env g.1 g.2 (groupBy_nonempty _ g hg2)
  · show (getParamSeparation env (methodPart env method unwrap allowed).paramGroups).isSome = true
    rw [methodPart_paramGroups, getParamSeparation_groupBy]
    rfl

/-- A method on which C17 applies: `listVisits` on the sample environment. -/
theorem processMethod_returns_witness :
    sampleEnv.allowedParams listVisits.methodName = some [.path, .query, .header] ∧
      ∃ r, processMethod sampleEnv listVisits true = some r ∧
        (∀ g ∈ r.paramGroups, g.2 ≠ []) := by
  refine ⟨rfl, ?_⟩
  obtain ⟨r, hr, hne, -⟩ := processMethod_returns sampleEnv listVisits true _ rfl
  exact ⟨r, hr, hne⟩

/-- C19: for a verb with an allow-list `processMethod` returns, and its method text is, in this
order: a line break; the documentation block of the documentation strings that are present and
not empty, in the order summary, description, swaggerUrl; the signature line; the statement
blocks, one per group in group order, indented, and a line break if there is any block; the
indented return statement that applies `this.http.<verb><<type>>` to the template string of
`basePath` and the rewritten URL, followed by the call arguments of `getRequestParams` for the
group keys; a line break and the closing brace; and the emitted overload. -/
theorem processMethod_methodDef_composition (env : Env) (method : Method) (unwrap : Bool)
    (allowed : List Loc)
    (hallowed : env.allowedParams method.methodName = some allowed) :
    ∃ r blocks signature, processMethod env method unwrap = some r ∧
      List.Forall₂ (fun g b => paramSeparationBlock env g.1 g.2 = some b)
        r.paramGroups blocks ∧
      (signature = [] ∨
        signature = lit "params: " ++ upperFirst env (method.simpleName ++ lit "Params")) ∧
      r.methodDef = lit "\n" ++ env.makeComment (documentationLines method)
        ++ (method.simpleName ++ lit "(" ++ signature ++ lit "): Observable<"
            ++ method.responseDef.type ++ lit "> \x7b\n")
        ++ env.indent (.lines blocks)
        ++ (if blocks = [] then [] else lit "\n")
        ++ env.indent (.text (lit "return this.http." ++ method.methodName ++ lit "<"
            ++ method.responseDef.type ++ lit ">" ++ lit "(\x60" ++ method.basePath
            ++ urlReplace method.url ++ lit "\x60"
            ++ getRequestParams (r.paramGroups.map Prod.fst) method.methodName ++ lit ");"))
        ++ lit "\n" ++ lit "\x7d"
        ++ emittedOverload env method unwrap allowed := by
  refine ⟨_, separationBlocks env (groupBy (survivors allowed method)),
    (methodPart env method unwrap allowed).paramsSignature,
    processMethod_methodPart env method unwrap allowed hallowed, ?_, ?_, ?_⟩
  · show List.Forall₂ _ (methodPart env method unwrap allowed).paramGroups _
    rw [methodPart_paramGroups]
    exact forall₂_separationBlocks env _ (fun g hg => groupBy_nonempty _ g hg)
  · rw [methodPart_paramsSignature]
    cases method.paramDef with
    | none => exact Or.inl rfl
    | some defs =>
      cases (processedSurvivors env allowed method).isInterfaceEmpty with
      | true => exact Or.inl rfl
      | false => exact Or.inr rfl
  · show composeMethodDef env method _ _ _ = _
    rw [composeMethodDef_eq, methodPart_splitParamsMethod, methodPart_paramSeparation,
      methodPart_paramTypes]
    show _ = lit "\n" ++ env.makeComment (documentationLines method)
        ++ (method.simpleName ++ lit "(" ++ (methodPart env method unwrap allowed).paramsSignature
            ++ lit "): Observable<" ++ method.responseDef.type ++ lit "> \x7b\n")
        ++ env.indent (.lines (separationBlocks env (groupBy (survivors allowed method))))
        ++ (if separationBlocks env (groupBy (survivors allowed method)) = [] then []
            else lit "\n")
        ++ env.indent (.text (lit "return this.http." ++ method.methodName ++ lit "<"
            ++ method.responseDef.type ++ lit ">" ++ lit "(\x60" ++ method.basePath
            ++ urlReplace method.url ++ lit "\x60"
            ++ getRequestParams ((methodPart env method unwrap allowed).paramGroups.map Prod.fst)
                method.methodName ++ lit ");"))
        ++ lit "\n" ++ lit "\x7d"
        ++ emittedOverload env method unwrap allowed
    rw [methodPart_paramGroups]

/-- A method on which C19 applies: the method text of `listVisits` on the sample environment. -/
theorem processMethod_methodDef_composition_witness :
    sampleEnv.allowedParams listVisits.methodName = some [.path, .query, .header] ∧
      ∃ r blocks signature, processMethod sampleEnv listVisits false = some r ∧
        List.Forall₂ (fun g b => paramSeparationBlock sampleEnv g.1 g.2 = some b)
          r.paramGroups blocks ∧
        (signature = [] ∨
          signature = lit "params: "
            ++ upperFirst sampleEnv (listVisits.simpleName ++ lit "Params")) ∧
        r.methodDef = lit "\n" ++ sampleEnv.makeComment (documentationLines listVisits)
          ++ (listVisits.simpleName ++ lit "(" ++ signature ++ lit "): Observable<"
              ++ listVisits.responseDef.type ++ lit "> \x7b\n")
          ++ sampleEnv.indent (.lines blocks)
          ++ (if blocks = [] then [] else lit "\n")
          ++ sampleEnv.indent (.text (lit "return this.http." ++ listVisits.methodName ++ lit "<"
              ++ listVisits.responseDef.type ++ lit ">" ++ lit "(\x60" ++ listVisits.basePath
              ++ urlReplace listVisits.url ++ lit "\x60"
              ++ getRequestParams (r.paramGroups.map Prod.fst) listVisits.methodName
              ++ lit ");"))
          ++ lit "\n" ++ lit "\x7d"
          ++ emittedOverload sampleEnv listVisits false [.path, .query, .header] :=
  ⟨rfl, processMethod_methodDef_composition sampleEnv listVisits false _ rfl⟩

/-- C20 (the code at the failing input): `getPetNoParams` has the URL `/pets/{id}` and no
descriptor list. No group survives and no statement block is emitted, yet the return statement
interpolates `pathParams.id`: the emitted method refers to `pathParams` and never declares
it. -/
theorem processMethod_pathParams_undeclared :
    (processMethod sampleEnv getPetNoParams false).map MethodCode.paramGroups = some [] ∧
    (processMethod sampleEnv getPetNoParams false).map MethodCode.methodDef
      = some (lit ("\ngetPet(): Observable<Pet> \x7b\n"
          ++ "  return this.http.get<Pet>(\x60/api/pets/$\x7bpathParams.id\x7d\x60);\n\x7d")) ∧
    lit "$\x7bpathParams.id\x7d" <:+: lit ("\ngetPet(): Observable<Pet> \x7b\n"
          ++ "  return this.http.get<Pet>(\x60/api/pets/$\x7bpathParams.id\x7d\x60);\n\x7d") ∧
    ¬ (lit "const pathParams" <:+: lit ("\ngetPet(): Observable<Pet> \x7b\n"
          ++ "  return this.http.get<Pet>(\x60/api/pets/$\x7bpathParams.id\x7d\x60);\n\x7d")) := by
  decide

/-- C15: a text in which no placeholder fragment `"<key>":{"type":"<word>","title":"<word>"}`
occurs is returned unchanged by the normalizer. -/
theorem removeEmptyObjects_unchanged (schema : Text)
    (hnone : ∀ pre key type title post : Text, (∀ c ∈ key, isWordChar c = true) →
      (∀ c ∈ type, isWordChar c = true) → (∀ c ∈ title, isWordChar c = true) →
      schema ≠ pre ++ fragment key type title ++ post) :
    removeEmptyObjectsFromJSONScheme schema = schema := by
  unfold removeEmptyObjectsFromJSONScheme
  rw [execAll_nil schema.length schema (matchAt_none_of_no_fragment schema hnone)]
  rfl

/-- A text on which C15 applies: `schemaRefsOnly` holds a reference and no placeholder
fragment, and the normalizer returns it unchanged. -/
theorem removeEmptyObjects_unchanged_witness :
    (∀ pre key type title post : Text, (∀ c ∈ key, isWordChar c = true) →
      (∀ c ∈ type, isWordChar c = true) → (∀ c ∈ title, isWordChar c = true) →
      schemaRefsOnly ≠ pre ++ fragment key type title ++ post) ∧
    defRef (lit "fooDef") <:+: schemaRefsOnly ∧
    removeEmptyObjectsFromJSONScheme schemaRefsOnly = schemaRefsOnly := by
  have hnone := no_fragment_of_matchAt_none schemaRefsOnly (by decide)
  exact ⟨hnone, by decide, removeEmptyObjects_unchanged schemaRefsOnly hnone⟩

/-- C16: the normalizer never raises and its scan ends. With the call of `JSON.parse` carried
out the function returns the text the embedding computes; fuel beyond the length of the text
does not change what the scan collects; every match is a non-empty prefix of the scanned text,
so the scan resumes on a shorter text; and the text of every match, wrapped in braces, parses
as an object whose only member is named by the key of the fragment. -/
theorem removeEmptyObjects_never_raises (schema : Text) :
    removeEmptyObjectsChecked schema = some (removeEmptyObjectsFromJSONScheme schema) ∧
    (∀ fuel, schema.length ≤ fuel → execAll fuel schema = execAll schema.length schema) ∧
    (∀ s m key rest, matchAt s = some (m, key, rest) →
      m ≠ [] ∧ s = m ++ rest ∧ rest.length < s.length) ∧
    (∀ s m key rest, matchAt s = some (m, key, rest) →
      ∃ value, jsonParse (lit "\x7b" ++ m ++ lit "\x7d") = some (.obj [(key, value)])) := by
  refine ⟨?_, ?_, ?_, ?_⟩
  · unfold removeEmptyObjectsChecked removeEmptyObjectsFromJSONScheme
    rw [execAllParsed_eq]
  · intro fuel hfuel
    exact execAll_fuel fuel schema.length schema hfuel (le_refl _)
  · intro s m key rest h
    exact matchAt_advances s m key rest h
  · intro s m key rest h
    obtain ⟨type, title, hk, ht, hu, hm, -⟩ := matchAt_sound s m key rest h
    rw [hm]
    exact ⟨_, jsonParse_wrapped_fragment key type title hk ht hu⟩

/-- C18: the normalized base path of a string is the string without its trailing `/`
characters; it does not end in `/`; the declared path is the normalized one followed by
nothing but `/`; normalizing again changes nothing; and the normalized base path of a value
that is not a string, an absent one included, is the empty text. -/
theorem normalizeBasePath_strips (value : BasePathValue) :
    normalizeBasePath value =
      (match value with
        | .string s => (s.reverse.dropWhile (fun x => x == '/')).reverse
        | .other => []) ∧
    (normalizeBasePath value).getLast? ≠ some '/' ∧
    (∀ s, value = .string s → ∃ k, s = normalizeBasePath value ++ List.replicate k '/') ∧
    normalizeBasePath (.string (normalizeBasePath value)) = normalizeBasePath value ∧
    normalizeBasePath (.string (lit "/api/v1//")) = lit "/api/v1" ∧
    normalizeBasePath .other = [] := by
  refine ⟨?_, ?_, ?_, ?_, by decide, rfl⟩
  · cases value with
    | string s => exact stripTrailingSlashes_eq_dropWhile s
    | other => rfl
  · cases value with
    | string s => exact stripTrailingSlashes_getLast s
    | other => simp [normalizeBasePath]
  · intro s hs
    subst hs
    exact stripTrailingSlashes_append s
  · cases value with
    | string s =>
      exact stripTrailingSlashes_fixed _ (stripTrailingSlashes_getLast s)
    | other => rfl

end SwaggerGen
